import Mathlib

/-!
# constatus: the scrolling ticker filter (filter_scroll.cpp) and rgb_to_yuy2

A shallow embedding of `blit`, of the poll loop of `filter_scroll::operator()`,
of `filter_scroll::poll_for_data`, of both branches of `filter_scroll::apply`
and of `rgb_to_yuy2` (encoding.cpp), followed by the properties proved about
them.

Conventions of the embedding

* a `char` / `uint8_t` is a natural number (its byte value), a `std::string`
  and a pixel buffer are lists of bytes;
* a C `int` is an `Int`; signed arithmetic is exact (signed overflow is
  undefined behaviour in C and is outside the model);
* where the source converts an `int` to an unsigned 64 bit type (`size_t`,
  `uint64_t`) the conversion is written out (`to_u64`);
* every access `buffer.at(i)` and every pixel access is checked: the model
  returns a `Fault` instead of a value when the index is out of range;
* the two threads only touch the line buffer while holding `buffer_lock`, so
  a push and an `apply` call are atomic steps on the shared state.
-/

namespace Constatus

/-! ## Data model -/

/-- One byte (`char`, `uint8_t`), given by its value. -/
abbrev Byte := Nat

/-- The line feed character. -/
def LF : Byte := 10

/-- The carriage return character. -/
def CR : Byte := 13

/-- The space character. -/
def SP : Byte := 32

/-- The string terminator. -/
def NUL : Byte := 0

/-- Bytes of a string literal, used to write the examples of the specification. -/
def str (s : String) : List Byte := s.toList.map Char.toNat

/-- Ways in which the C++ code can fail to complete a call. -/
inductive Fault where
  /-- A `std::vector::at` or a pixel access outside the allocated range. -/
  | out_of_range
  /-- An integer division or modulo whose divisor is zero. -/
  | div_by_zero
  /-- The loop did not finish within the iterations granted to the model. -/
  | out_of_fuel
  deriving DecidableEq, Repr

/-- The struct `scroll_entry_t`: `{ text, bitmap, w, h }`; `bitmap` is
`nullptr` (here `none`) until the entry has been rasterized. -/
structure scroll_entry_t where
  text : List Byte
  bitmap : Option (List Byte)
  w : Int
  h : Int
  deriving DecidableEq, Repr

/-- The members of class `filter_scroll` that the modelled methods read or
write. `restarts` counts the calls of `restart_process` (the descriptor
itself is not modelled). -/
structure filter_scroll where
  x : Int
  y : Int
  text_w : Int
  n_lines : Int
  scroll_speed : Int
  buffer : List scroll_entry_t
  in_buffer : List Byte
  cur_x_pos : Int
  restarts : Nat
  deriving DecidableEq, Repr

/-- The state right after construction: empty line buffer, empty
accumulator, `cur_x_pos` zero, and the one `restart_process` call of the
constructor. -/
def construct (x y text_w n_lines scroll_speed : Int) : filter_scroll :=
  { x := x, y := y, text_w := text_w, n_lines := n_lines, scroll_speed := scroll_speed,
    buffer := [], in_buffer := [], cur_x_pos := 0, restarts := 1 }

/-- Conversion of an `int` to `size_t` / `uint64_t` (usual arithmetic
conversions): a negative value wraps around modulo `2^64`. -/
def to_u64 (i : Int) : Nat :=
  if i < 0 then (i + 2 ^ 64).toNat else i.toNat

/-! ## The poll loop: pushing a line (operator(), lines 72-85) -/

/-- The eviction loop
`while(buffer.size() >= n_lines) { delete [] buffer.at(0).bitmap; buffer.erase(buffer.begin()); }`.
The comparison converts `n_lines` to `size_t`; on an empty vector (size 0)
`buffer.at(0)` throws `std::out_of_range`. -/
def evict (n_lines : Int) : List scroll_entry_t → Except Fault (List scroll_entry_t)
  | [] => if to_u64 n_lines ≤ 0 then .error .out_of_range else .ok []
  | e :: rest =>
    if to_u64 n_lines ≤ (e :: rest).length then evict n_lines rest else .ok (e :: rest)

/-- The statement `if (has_data && !data.empty()) { ... }` of the poll loop:
a fresh entry without bitmap is appended after the eviction loop has run. -/
def push_step (f : filter_scroll) (has_data : Bool) (data : List Byte) :
    Except Fault filter_scroll :=
  if has_data && !data.isEmpty then
    let se : scroll_entry_t := { text := data, bitmap := none, w := 0, h := 0 }
    match evict f.n_lines f.buffer with
    | .error e => .error e
    | .ok buffer => .ok { f with buffer := buffer ++ [se] }
  else
    .ok f

/-- Pushing the lines of a list one after another, each by `push_step` with
`has_data = true`; a fault of one push ends the run. -/
def push_lines (f : filter_scroll) : List (List Byte) → Except Fault filter_scroll
  | [] => .ok f
  | t :: rest =>
    match push_step f true t with
    | .error e => .error e
    | .ok f1 => push_lines f1 rest

/-- The last `n` elements of a list. -/
def lastN {α : Type} (n : Nat) (l : List α) : List α := l.drop (l.length - n)

/-! ## The text source channel: poll_for_data (lines 100-138) -/

/-- What `poll` and `read` deliver to one call of `poll_for_data`. -/
inductive ReadEvent where
  /-- The readiness wait `poll(fds, 1, 1)` did not return 1: nothing to read. -/
  | not_ready
  /-- The descriptor was ready and `read` returned a negative value. -/
  | read_error
  /-- The descriptor was ready and `read` stored the bytes `c` in `in` and
  returned `rc = c.length` (zero, the end of file, for the empty list). -/
  | data (c : List Byte)
  deriving DecidableEq, Repr

/-- The loop `for(;;) { cr = strchr(p, CR); if (!cr) break; *cr = ' '; p = cr; }`
on the C string that starts at `p`: `strchr` walks to the next carriage return
and stops at the terminator, so every carriage return before the first NUL
becomes a space and nothing behind that NUL is touched. -/
def replace_cr : List Byte → List Byte
  | [] => []
  | b :: rest =>
    if b = NUL then b :: rest
    else if b = CR then SP :: replace_cr rest
    else b :: replace_cr rest

/-- The C string held by a character array: the bytes before the first NUL
(what `in_buffer += in` appends). -/
def c_str : List Byte → List Byte
  | [] => []
  | b :: rest => if b = NUL then [] else b :: c_str rest

/-- The call `std::string::find(ch)`: index of the first occurrence, `none`
for `npos`. -/
def find (ch : Byte) : List Byte → Option Nat
  | [] => none
  | b :: rest =>
    if b = ch then some 0
    else
      match find ch rest with
      | none => none
      | some i => some (i + 1)

/-- Lines 129-137: look for the first line feed of the accumulator, return
the text before it and keep the text behind it. -/
def scan_line (f : filter_scroll) : filter_scroll × Bool × List Byte :=
  match find LF f.in_buffer with
  | some lf => ({ f with in_buffer := f.in_buffer.drop (lf + 1) }, true, f.in_buffer.take lf)
  | none => (f, false, [])

/-- The method `restart_process`: only the fact that it ran is recorded. -/
def restart_process (f : filter_scroll) : filter_scroll :=
  { f with restarts := f.restarts + 1 }

/-- The method `poll_for_data`; the outcome of `poll` and `read` is the
argument `ev`. Returns the new state and the tuple `{ has_data, data }`. -/
def poll_for_data (f : filter_scroll) : ReadEvent → filter_scroll × Bool × List Byte
  | .not_ready => scan_line f
  | .read_error => (restart_process f, false, [])
  | .data c =>
    if (c.length : Int) ≤ 0 then (restart_process f, false, [])
    else
      let inb := replace_cr (c ++ [NUL])
      scan_line { f with in_buffer := f.in_buffer ++ c_str inb }

/-- Polls without new bytes, repeated until one returns no line (at most
`fuel` polls that return a line); the lines returned, in order, and the final
state. -/
def drain : Nat → filter_scroll → filter_scroll × List (List Byte)
  | 0, f => (f, [])
  | fuel + 1, f =>
    match poll_for_data f .not_ready with
    | (f1, true, line) =>
      let r := drain fuel f1
      (r.1, line :: r.2)
    | (f1, false, _) => (f1, [])

/-- One `poll_for_data` call per chunk, in order; the lines returned by these
calls, in order, and the state after the last one. -/
def feed (f : filter_scroll) : List (List Byte) → filter_scroll × List (List Byte)
  | [] => (f, [])
  | c :: rest =>
    match poll_for_data f (.data c) with
    | (f1, true, line) =>
      let r := feed f1 rest
      (r.1, line :: r.2)
    | (f1, false, _) => feed f1 rest

/-- A whole session: the chunks are delivered to successive calls, then the
accumulator is drained by polls without new bytes. The accumulator can hold
at most as many lines as it has bytes, which bounds the draining polls. -/
def session (f : filter_scroll) (chunks : List (List Byte)) : filter_scroll × List (List Byte) :=
  let r := feed f chunks
  let d := drain (r.1.in_buffer.length + 1) r.1
  (d.1, r.2 ++ d.2)

/-- One iteration of the loop of `operator()`: poll, then push the line if
there is one. -/
def loop_body (f : filter_scroll) (ev : ReadEvent) : Except Fault filter_scroll :=
  match poll_for_data f ev with
  | (f1, has_data, data) => push_step f1 has_data data

/-- Every carriage return replaced by a space. -/
def cr_to_space (s : List Byte) : List Byte := s.map fun b => if b = CR then SP else b

/-- Every carriage return removed ("stripped"). -/
def strip_cr (s : List Byte) : List Byte := s.filter fun b => b ≠ CR

/-- The logical lines of a byte stream: the texts ended by a line feed, in
order, and the unterminated rest. -/
def split_lines : List Byte → List (List Byte) × List Byte
  | [] => ([], [])
  | b :: rest =>
    match split_lines rest with
    | ([], r) => if b = LF then ([[]], r) else ([], b :: r)
    | (l :: ls, r) => if b = LF then ([] :: l :: ls, r) else ((b :: l) :: ls, r)

/-- The state after one poll that found nothing to read. -/
def poll_idle (f : filter_scroll) : filter_scroll := (poll_for_data f .not_ready).1

/-! ## The blitter (lines 18-42) -/

/-- A checked read of `m[i]`. -/
def load (m : List Byte) (i : Int) : Except Fault Byte :=
  if 0 ≤ i ∧ i < m.length then .ok (m.getD i.toNat 0) else .error .out_of_range

/-- A checked write `m[i] = v`. -/
def store (m : List Byte) (i : Int) (v : Byte) : Except Fault (List Byte) :=
  if 0 ≤ i ∧ i < m.length then .ok (m.set i.toNat v) else .error .out_of_range

/-- Lines 37-39: the three channel copies of one pixel. -/
def copy_pixel (out inp : List Byte) (temp_offset in_offset : Int) : Except Fault (List Byte) :=
  match load inp (in_offset + 0) with
  | .error e => .error e
  | .ok b0 =>
    match store out (temp_offset + 0) b0 with
    | .error e => .error e
    | .ok out0 =>
      match load inp (in_offset + 1) with
      | .error e => .error e
      | .ok b1 =>
        match store out0 (temp_offset + 1) b1 with
        | .error e => .error e
        | .ok out1 =>
          match load inp (in_offset + 2) with
          | .error e => .error e
          | .ok b2 => store out1 (temp_offset + 2) b2

/-- The inner loop `for(int wx=off_x; wx<in_w; wx++)` of `blit`, started at
`wx` with `n` iterations left. -/
def blit_cols (w x : Int) (inp : List Byte) (in_w wy out_offset : Int) :
    Nat → Int → List Byte → Except Fault (List Byte)
  | 0, _, out => .ok out
  | n + 1, wx, out =>
    let target_x := wx + x
    if target_x ≥ w ∨ target_x < 0 then
      blit_cols w x inp in_w wy out_offset n (wx + 1) out
    else
      let temp_offset := out_offset + target_x * 3
      let in_offset := wy * in_w * 3 + wx * 3
      match copy_pixel out inp temp_offset in_offset with
      | .error e => .error e
      | .ok out1 => blit_cols w x inp in_w wy out_offset n (wx + 1) out1

/-- The outer loop `for(int wy=off_y; wy<in_h; wy++)` of `blit`, started at
`wy` with `n` iterations left; `break` ends it at the first row at or below
the bottom of the destination. -/
def blit_rows (w h x y : Int) (inp : List Byte) (in_w off_x : Int) :
    Nat → Int → List Byte → Except Fault (List Byte)
  | 0, _, out => .ok out
  | n + 1, wy, out =>
    let target_y := y + wy
    if target_y ≥ h then .ok out
    else if target_y < 0 then blit_rows w h x y inp in_w off_x n (wy + 1) out
    else
      let out_offset := (y + wy) * w * 3
      match blit_cols w x inp in_w wy out_offset (in_w - off_x).toNat off_x out with
      | .error e => .error e
      | .ok out1 => blit_rows w h x y inp in_w off_x n (wy + 1) out1

/-- The function `blit`: the row loop runs `max 0 (in_h - off_y)` times from
`off_y`, the column loop `max 0 (in_w - off_x)` times from `off_x`. -/
def blit (out : List Byte) (w h x y : Int) (inp : List Byte) (in_w in_h off_x off_y : Int) :
    Except Fault (List Byte) :=
  blit_rows w h x y inp in_w off_x (in_h - off_y).toNat off_y out

/-! ## The scroll compositor, scrolling mode (apply, lines 142-184) -/

/-- The external rasterizer together with the placeholder expansion: for a
text and a timestamp the width, the height and the `IMS(w, h, 3)` bytes that
lines 151-161 copy into the entry. -/
abbrev Rasterizer := List Byte → Nat → Int × Int × List Byte

/-- Lines 149-163: every entry without bitmap gets one; entries that have a
bitmap are left alone. -/
def rasterize_missing (raster : Rasterizer) (ts : Nat) (buffer : List scroll_entry_t) :
    List scroll_entry_t :=
  buffer.map fun what =>
    match what.bitmap with
    | some _ => what
    | none =>
      match raster what.text ts with
      | (w, h, bits) => { what with w := w, h := h, bitmap := some bits }

/-- One `blit` call of the layout loop: the destination column passed to
`blit`, the index of the entry and the clip offset. -/
structure Placement where
  x : Int
  bitmap_nr : Nat
  offset_x : Int
  deriving DecidableEq, Repr

/-- The loop `while(x < use_w && !buffer.empty())` of lines 169-180, with at
most `fuel` iterations. Returns the frame and the blit calls made, or the
fault that ended the loop. -/
def layout (buffer : List scroll_entry_t) (w h work_y use_w cur_x_pos : Int) :
    Nat → Int → Nat → Bool → List Byte → Except Fault (List Byte × List Placement)
  | 0, x, _, _, in_out =>
    if x < use_w ∧ buffer ≠ [] then .error .out_of_fuel else .ok (in_out, [])
  | fuel + 1, x, bitmap_nr, first, in_out =>
    if x < use_w ∧ buffer ≠ [] then
      let offset_x := if first then cur_x_pos else 0
      match buffer[bitmap_nr]? with
      | none => .error .out_of_range
      | some e =>
        match blit in_out w h (x - offset_x) work_y (e.bitmap.getD []) e.w e.h offset_x 0 with
        | .error err => .error err
        | .ok out1 =>
          let x1 := x + (e.w - offset_x)
          let nr1 := if bitmap_nr + 1 ≥ buffer.length then 0 else bitmap_nr + 1
          match layout buffer w h work_y use_w cur_x_pos fuel x1 nr1 false out1 with
          | .error err => .error err
          | .ok (out2, placed) =>
            .ok (out2, { x := x - offset_x, bitmap_nr := bitmap_nr, offset_x := offset_x } :: placed)
    else .ok (in_out, [])

/-- Conversion of a `uint64_t` to `int`: the low 32 bits, read as a signed
value. -/
def to_i32 (v : Nat) : Int :=
  if v % 2 ^ 32 < 2 ^ 31 then ((v % 2 ^ 32 : Nat) : Int) else ((v % 2 ^ 32 : Nat) : Int) - 2 ^ 32

/-- Line 183: `cur_x_pos = (ts / (1000000 / scroll_speed)) % buffer.at(0).w`.
The inner division is an `int` division (truncating); its result and the
width are converted to `uint64_t` for the operations with `ts`, and the
remainder is stored in the `int` `cur_x_pos`. For a width that is not
negative the remainder is below the width, an `int`, and the store changes
nothing; for a negative width, converted to a large `uint64_t`, the store
keeps the low 32 bits. -/
def scroll_pos (ts : Nat) (scroll_speed head_w : Int) : Except Fault Int :=
  if scroll_speed = 0 then .error .div_by_zero
  else
    let per := to_u64 (Int.tdiv 1000000 scroll_speed)
    if per = 0 then .error .div_by_zero
    else
      let wu := to_u64 head_w
      if wu = 0 then .error .div_by_zero
      else if head_w < 0 then .ok (to_i32 ((ts / per) % wu))
      else .ok (((ts / per) % wu : Nat) : Int)

/-- The branch `if (horizontal_scroll)` of `apply` on a frame `in_out` of
`w` by `h` pixels at time `ts`; the layout loop gets `fuel` iterations.
Returns the new state, the frame and the blit calls made. -/
def apply_scroll (raster : Rasterizer) (fuel : Nat) (f : filter_scroll) (ts : Nat) (w h : Int)
    (in_out : List Byte) : Except Fault (filter_scroll × List Byte × List Placement) :=
  let work_x := if f.x < 0 then f.x + w else f.x
  let work_y := if f.y < 0 then f.y + h else f.y
  let buffer := rasterize_missing raster ts f.buffer
  let use_w := if f.text_w = -1 then w else f.text_w
  match layout buffer w h work_y use_w f.cur_x_pos fuel work_x 0 true in_out with
  | .error e => .error e
  | .ok (out, placed) =>
    match buffer with
    | [] => .ok ({ f with buffer := buffer }, out, placed)
    | e0 :: _ =>
      match scroll_pos ts f.scroll_speed e0.w with
      | .error e => .error e
      | .ok p => .ok ({ f with buffer := buffer, cur_x_pos := p }, out, placed)

/-! ## The two actors as a step machine -/

/-- One atomic step on the shared state: the poll loop pushes a line, or the
video pipeline calls `apply` in scrolling mode. -/
inductive Step where
  | push (data : List Byte)
  | frame (ts : Nat) (w h : Int) (in_out : List Byte) (fuel : Nat)
  deriving DecidableEq, Repr

/-- The effect of one step on the filter state. -/
def step (raster : Rasterizer) (f : filter_scroll) : Step → Except Fault filter_scroll
  | .push data => push_step f true data
  | .frame ts w h in_out fuel =>
    match apply_scroll raster fuel f ts w h in_out with
    | .error e => .error e
    | .ok r => .ok r.1

/-- The effect of a sequence of steps. -/
def run (raster : Rasterizer) (f : filter_scroll) : List Step → Except Fault filter_scroll
  | [] => .ok f
  | s :: rest =>
    match step raster f s with
    | .error e => .error e
    | .ok f1 => run raster f1 rest

/-! ## Auxiliary notions of the statements -/

/-- Byte index of channel `c` of the pixel in column `X` of row `Y`, in a
buffer whose rows hold `w` pixels of 3 bytes. -/
def pix (w X Y c : Int) : Int := (Y * w + X) * 3 + c

/-- A rasterized entry is well formed: its width and height are not
negative and its bitmap holds `w * h * 3` bytes. -/
def entry_ok (e : scroll_entry_t) : Prop :=
  0 ≤ e.w ∧ 0 ≤ e.h ∧ ((e.bitmap.getD []).length : Int) = e.w * e.h * 3

instance (e : scroll_entry_t) : Decidable (entry_ok e) := by
  unfold entry_ok
  infer_instance

/-- The assumption made on the external rasterizer: a non-empty text gives a
bitmap at least one pixel wide, of a height that is not negative, holding
`w * h * 3` bytes. -/
def raster_ok (raster : Rasterizer) : Prop :=
  ∀ (text : List Byte) (ts : Nat), text ≠ [] →
    1 ≤ (raster text ts).1 ∧ 0 ≤ (raster text ts).2.1 ∧
      (((raster text ts).2.2).length : Int) = (raster text ts).1 * (raster text ts).2.1 * 3

/-- What holds of the filter state whenever the lock is free: the scroll
offset is not negative, every entry has a non-empty text, and every entry
that has a bitmap is well formed and at least one pixel wide. -/
def state_ok (f : filter_scroll) : Prop :=
  0 ≤ f.cur_x_pos ∧
    ∀ e ∈ f.buffer, e.text ≠ [] ∧ (e.bitmap = none ∨ (1 ≤ e.w ∧ entry_ok e))

/-- A rasterizer for the examples: one pixel per byte of text, one row, every
channel 7. -/
def demo_raster : Rasterizer :=
  fun text _ => ((text.length : Int), 1, List.replicate (text.length * 3) 7)

/-- The property of C8 on one state: when the buffer is not empty the stored
scroll offset lies in `[0, width of the head entry)`. -/
def offset_in_head (f : filter_scroll) : Prop :=
  match f.buffer with
  | [] => True
  | e :: _ => 0 ≤ f.cur_x_pos ∧ f.cur_x_pos < e.w

instance (f : filter_scroll) : Decidable (offset_in_head f) := by
  unfold offset_in_head
  split <;> infer_instance

/-- A rasterizer for the examples that gives every text an empty bitmap of
width and height zero. -/
def zero_raster : Rasterizer := fun _ _ => (0, 0, [])

/-- An example state: capacity 2, the line "AB" already rasterized (with a
bitmap of its own) and the new line "C" without bitmap. -/
def demo_state : filter_scroll :=
  { construct 0 0 (-1) 2 1000000 with
    buffer := [{ text := str "AB", bitmap := some [1, 2, 3, 4, 5, 6], w := 2, h := 1 },
               { text := str "C", bitmap := none, w := 0, h := 0 }] }

/-- The example state after a scrolling frame at time 3 with `demo_raster`. -/
def demo_state_after : filter_scroll :=
  { construct 0 0 (-1) 2 1000000 with
    buffer := [{ text := str "AB", bitmap := some [1, 2, 3, 4, 5, 6], w := 2, h := 1 },
               { text := str "C", bitmap := some [7, 7, 7], w := 1, h := 1 }],
    cur_x_pos := 1 }

/-- The external placeholder expansion `unescape(text, ts, ...)`: the
expanded text of an entry at a timestamp. -/
abbrev Expander := List Byte → Nat → List Byte

/-- The external splitter `split(in, splitter)`. -/
abbrev Splitter := List Byte → List Byte → List (List Byte)

/-- One construction of `draw_text` in static mode: the line drawn, its
position and the width passed (`text_w == -1 ? w : text_w`). -/
structure DrawCall where
  text : List Byte
  x : Int
  y : Int
  max_w : Int
  deriving DecidableEq, Repr

/-- The effect of one `draw_text` construction on the frame (external). -/
abbrev Painter := List Byte → DrawCall → List Byte

/-- The two characters backslash and `n`, the delimiter `"\\n"` of line 195. -/
def ESC_N : List Byte := [92, 110]

/-- Lines 191-195: split on a real newline if `text_out.find("\n")` finds
one, else on the two characters backslash-n; `split` receives
`text_out.c_str()`. -/
def static_parts (split : Splitter) (text_out : List Byte) : List (List Byte) :=
  match find LF text_out with
  | some _ => split (c_str text_out) [LF]
  | none => split (c_str text_out) ESC_N

/-- The loop `for(std::string cl : *parts)` of lines 197-201: each part is
drawn at `(work_x, work_y)` and `work_y` moves down by `font_size + 1`.
Returns the frame, the new `work_y` and the draw calls made. -/
def draw_parts (paint : Painter) (work_x max_w font_size : Int) :
    List (List Byte) → Int → List Byte → List Byte × Int × List DrawCall
  | [], work_y, in_out => (in_out, work_y, [])
  | cl :: rest, work_y, in_out =>
    let call : DrawCall := { text := cl, x := work_x, y := work_y, max_w := max_w }
    match draw_parts paint work_x max_w font_size rest (work_y + (font_size + 1))
        (paint in_out call) with
    | (out, y1, calls) => (out, y1, call :: calls)

/-- The loop `for(auto what : buffer)` of lines 188-204. -/
def static_entries (split : Splitter) (expand : Expander) (paint : Painter) (ts : Nat)
    (work_x max_w font_size : Int) :
    List scroll_entry_t → Int → List Byte → List Byte × Int × List DrawCall
  | [], work_y, in_out => (in_out, work_y, [])
  | what :: rest, work_y, in_out =>
    let text_out := expand what.text ts
    match draw_parts paint work_x max_w font_size (static_parts split text_out) work_y in_out with
    | (out1, y1, calls1) =>
      match static_entries split expand paint ts work_x max_w font_size rest y1 out1 with
      | (out2, y2, calls2) => (out2, y2, calls1 ++ calls2)

/-- The `else` branch of `apply` (static mode) for the member `font_size`:
the frame and the draw calls made, in order. The buffer is not changed. -/
def apply_static (split : Splitter) (expand : Expander) (paint : Painter) (f : filter_scroll)
    (font_size : Int) (ts : Nat) (w h : Int) (in_out : List Byte) : List Byte × List DrawCall :=
  let work_x := if f.x < 0 then f.x + w else f.x
  let work_y := if f.y < 0 then f.y + h else f.y
  match static_entries split expand paint ts work_x (if f.text_w = -1 then w else f.text_w)
      font_size f.buffer work_y in_out with
  | (out, _, calls) => (out, calls)

/-- Modelled from the spec: the line splitter
`split(string, delimiter) -> sequence<string>` of the utilities, which are
not among the sources: the pieces of the string between the occurrences of
the delimiter, from left to right. `skip` counts the bytes of a delimiter
still to pass over, `cur` holds the piece read so far, reversed. -/
def split_go (delim : List Byte) : List Byte → Nat → List Byte → List (List Byte)
  | [], _, cur => [cur.reverse]
  | _ :: rest, skip + 1, cur => split_go delim rest skip cur
  | b :: rest, 0, cur =>
    if delim ≠ [] ∧ (b :: rest).take delim.length = delim then
      cur.reverse :: split_go delim rest (delim.length - 1) []
    else split_go delim rest 0 (b :: cur)

/-- Modelled from the spec: the line splitter
`split(string, delimiter) -> sequence<string>`, see `split_go`. -/
def split_on : Splitter := fun s delim => split_go delim s 0 []

/-- The lines of static mode in the words of the specification: each
entry's expanded text is split on real newlines if it contains one, else on
backslash-n; the lines of all entries in buffer order. -/
def spec_lines (split : Splitter) (expand : Expander) (ts : Nat) (buffer : List scroll_entry_t) :
    List (List Byte) :=
  (buffer.map fun e =>
    if LF ∈ expand e.text ts then split (expand e.text ts) [LF]
    else split (expand e.text ts) ESC_N).flatten

/-- An example state for static mode: ticker at (3, 5), full frame width,
and the one line L1\nL2 written with backslash-n. -/
def demo_static : filter_scroll :=
  { construct 3 5 (-1) 2 1000000 with
    buffer := [{ text := str "L1\\nL2", bitmap := none, w := 0, h := 0 }] }

/-! ## Colour conversion: rgb_to_yuy2 (encoding.cpp, lines 43-81) -/

/-- The function `std::clamp(v, lo, hi)`. -/
def clamp (v lo hi : Int) : Int := if v < lo then lo else if hi < v then hi else v

/-- The argument of `std::clamp` in the macro `RGB2Y`; `>> 8` is the floor
division by 256. -/
def RGB2Y_raw (r g b : Int) : Int := (66 * r + 129 * g + 25 * b + 128) / 256 + 16

/-- The argument of `std::clamp` in the macro `RGB2U`. -/
def RGB2U_raw (r g b : Int) : Int := (-38 * r - 74 * g + 112 * b + 128) / 256 + 128

/-- The argument of `std::clamp` in the macro `RGB2V`. -/
def RGB2V_raw (r g b : Int) : Int := (112 * r - 94 * g - 18 * b + 128) / 256 + 128

/-- The macro `RGB2Y`. -/
def RGB2Y (r g b : Int) : Int := clamp (RGB2Y_raw r g b) 0 255

/-- The macro `RGB2U`. -/
def RGB2U (r g b : Int) : Int := clamp (RGB2U_raw r g b) 0 255

/-- The macro `RGB2V`. -/
def RGB2V (r g b : Int) : Int := clamp (RGB2V_raw r g b) 0 255

/-- Conversion of an `int` to `uint8_t`: the value modulo 256. -/
def to_u8 (v : Int) : Byte := (v % 256).toNat

/-- Lines 64-78 for one pair of pixels: the four bytes `Y1, u12, Y2, v12`
written to the output. Every intermediate value is stored in a `uint8_t`. -/
def yuy2_pair (r1 g1 b1 r2 g2 b2 : Int) : Byte × Byte × Byte × Byte :=
  let Y1 := to_u8 (RGB2Y r1 g1 b1)
  let U1 := to_u8 (RGB2U r1 g1 b1)
  let V1 := to_u8 (RGB2V r1 g1 b1)
  let Y2 := to_u8 (RGB2Y r2 g2 b2)
  let U2 := to_u8 (RGB2U r2 g2 b2)
  let V2 := to_u8 (RGB2V r2 g2 b2)
  let u12 := to_u8 (((U1 : Int) + (U2 : Int) + 1) / 2)
  let v12 := to_u8 (((V1 : Int) + (V2 : Int) + 1) / 2)
  (Y1, u12, Y2, v12)

/-- Three checked reads `in[o + 0]`, `in[o + 1]`, `in[o + 2]`. -/
def load3 (inp : List Byte) (o : Int) : Except Fault (Int × Int × Int) :=
  match load inp (o + 0) with
  | .error e => .error e
  | .ok r =>
    match load inp (o + 1) with
    | .error e => .error e
    | .ok g =>
      match load inp (o + 2) with
      | .error e => .error e
      | .ok b => .ok ((r : Int), (g : Int), (b : Int))

/-- Four checked writes `(*out)[outo++] = ...` of lines 75-78. -/
def store4 (out : List Byte) (outo : Int) (p : Byte × Byte × Byte × Byte) :
    Except Fault (List Byte) :=
  match store out (outo + 0) p.1 with
  | .error e => .error e
  | .ok out0 =>
    match store out0 (outo + 1) p.2.1 with
    | .error e => .error e
    | .ok out1 =>
      match store out1 (outo + 2) p.2.2.1 with
      | .error e => .error e
      | .ok out2 => store out2 (outo + 3) p.2.2.2

/-- The inner loop `for(int x=0; x<width; x += 2)` of `rgb_to_yuy2`, at
column `x` with `n` iterations left; `outo` is the output index. -/
def yuy2_cols (inp : List Byte) (width y : Int) :
    Nat → Int → List Byte → Int → Except Fault (List Byte × Int)
  | 0, _, out, outo => .ok (out, outo)
  | n + 1, x, out, outo =>
    let o := y * width * 3 + x * 3
    match load3 inp o with
    | .error e => .error e
    | .ok (r1, g1, b1) =>
      match load3 inp (o + 3) with
      | .error e => .error e
      | .ok (r2, g2, b2) =>
        match store4 out outo (yuy2_pair r1 g1 b1 r2 g2 b2) with
        | .error e => .error e
        | .ok out1 => yuy2_cols inp width y n (x + 2) out1 (outo + 4)

/-- The outer loop `for(int y=0; y<height; y++)` of `rgb_to_yuy2`; the
inner loop runs for `x = 0, 2, ...` below `width`, that is
`(width + 1) / 2` times. -/
def yuy2_rows (inp : List Byte) (width : Int) :
    Nat → Int → List Byte → Int → Except Fault (List Byte × Int)
  | 0, _, out, outo => .ok (out, outo)
  | n + 1, y, out, outo =>
    match yuy2_cols inp width y ((width + 1) / 2).toNat 0 out outo with
    | .error e => .error e
    | .ok (out1, outo1) => yuy2_rows inp width n (y + 1) out1 outo1

/-- The function `rgb_to_yuy2`: `width * 2 * height` bytes are allocated
(their initial content, here zero, is never read) and filled; returns the
output and the final value of `outo`. -/
def rgb_to_yuy2 (inp : List Byte) (width height : Int) : Except Fault (List Byte × Int) :=
  yuy2_rows inp width height.toNat 0 (List.replicate (width * 2 * height).toNat 0) 0

/-- An example state for static mode whose one entry holds the text "a",
NUL, newline, "b". -/
def demo_static_nul : filter_scroll :=
  { construct 3 5 (-1) 2 1000000 with
    buffer := [{ text := [97, NUL, LF, 98], bitmap := none, w := 0, h := 0 }] }

/-- The entry that a push appends for the line `t`: no bitmap yet. -/
def new_entry (t : List Byte) : scroll_entry_t := { text := t, bitmap := none, w := 0, h := 0 }

/-- An example state below capacity: capacity 3 and the two pushed lines
"AAAA" and "B", not yet rasterized. -/
def demo_below_capacity : filter_scroll :=
  { construct 0 0 (-1) 3 1000000 with
    buffer := [{ text := str "AAAA", bitmap := none, w := 0, h := 0 },
               { text := str "B", bitmap := none, w := 0, h := 0 }] }

/-! ## Properties of the push step -/

theorem lastN_length {α : Type} (n : Nat) (l : List α) : (lastN n l).length = min l.length n := by
  simp [lastN]; omega

theorem lastN_append_lastN {α : Type} (n : Nat) (l m : List α) :
    lastN n (lastN n l ++ m) = lastN n (l ++ m) := by
  unfold lastN
  by_cases h : l.length ≤ n
  · have h0 : l.length - n = 0 := by omega
    simp [h0]
  · have key : l ++ m = List.take (l.length - n) l ++ (List.drop (l.length - n) l ++ m) := by
      rw [← List.append_assoc, List.take_append_drop]
    have hlen : (l ++ m).length - n = (List.take (l.length - n) l).length + m.length := by
      simp; omega
    have hlen2 : (List.drop (l.length - n) l ++ m).length - n = m.length := by
      simp; omega
    rw [hlen, hlen2]
    conv_rhs => rw [key]
    rw [List.drop_append]

/-- With a capacity of at least one the eviction loop ends normally and keeps
the newest `n_lines - 1` entries. -/
theorem evict_ok (n_lines : Int) (hn : 1 ≤ n_lines) (buffer : List scroll_entry_t) :
    evict n_lines buffer = .ok (lastN (n_lines.toNat - 1) buffer) := by
  have hu : to_u64 n_lines = n_lines.toNat := by
    unfold to_u64; rw [if_neg (by omega)]
  induction buffer with
  | nil =>
    simp only [evict, hu, lastN]
    rw [if_neg (by omega)]; simp
  | cons e rest ih =>
    simp only [evict, hu]
    by_cases h : n_lines.toNat ≤ (e :: rest).length
    · rw [if_pos h, ih]
      simp only [lastN, List.length_cons] at *
      have : rest.length + 1 - (n_lines.toNat - 1) = (rest.length - (n_lines.toNat - 1)) + 1 := by
        omega
      rw [this, List.drop_succ_cons]
    · rw [if_neg h]
      simp only [lastN, List.length_cons] at *
      have : rest.length + 1 - (n_lines.toNat - 1) = 0 := by omega
      rw [this, List.drop_zero]

/-- With capacity zero the eviction loop never ends normally: whatever the
buffer holds, it is emptied and then `buffer.at(0)` throws. -/
theorem evict_zero (buffer : List scroll_entry_t) : evict 0 buffer = .error .out_of_range := by
  induction buffer with
  | nil => simp [evict, to_u64]
  | cons e rest ih => simp [evict, to_u64, ih]

theorem lastN_snoc {α : Type} (n : Nat) (hn : 1 ≤ n) (l : List α) (a : α) :
    lastN (n - 1) l ++ [a] = lastN n (l ++ [a]) := by
  unfold lastN
  have h1 : (l ++ [a]).length - n = l.length - (n - 1) := by simp; omega
  rw [h1, List.drop_append_of_le_length (by omega)]

theorem lastN_map {α β : Type} (g : α → β) (n : Nat) (l : List α) :
    lastN n (l.map g) = (lastN n l).map g := by
  simp [lastN, List.map_drop]

/-- With a capacity of at least one a push of a non-empty line ends normally:
the newest `n_lines - 1` entries are kept and the new entry is appended. -/
theorem push_step_ok (f : filter_scroll) (data : List Byte) (hn : 1 ≤ f.n_lines)
    (hd : data ≠ []) :
    push_step f true data = .ok { f with buffer := lastN (f.n_lines.toNat - 1) f.buffer ++
      [{ text := data, bitmap := none, w := 0, h := 0 }] } := by
  have he : data.isEmpty = false := by
    cases data with
    | nil => exact absurd rfl hd
    | cons a l => rfl
  simp [push_step, he, evict_ok f.n_lines hn f.buffer]

/-- Pushing a list of non-empty lines with a capacity of at least one ends
normally; the texts of the buffer are the last `n_lines` of the old texts
followed by the pushed lines, and nothing but the buffer changes. -/
theorem push_lines_ok (lines : List (List Byte)) :
    ∀ f : filter_scroll, 1 ≤ f.n_lines → (∀ t ∈ lines, t ≠ []) → lines ≠ [] →
      ∃ f1, push_lines f lines = .ok f1 ∧
        f1.buffer.map scroll_entry_t.text =
          lastN f.n_lines.toNat (f.buffer.map scroll_entry_t.text ++ lines) ∧
        f1.n_lines = f.n_lines ∧ f1.cur_x_pos = f.cur_x_pos ∧ f1.in_buffer = f.in_buffer := by
  induction lines with
  | nil => intro f _ _ h; exact absurd rfl h
  | cons t rest ih =>
    intro f hn hne _
    have ht : t ≠ [] := hne t (List.mem_cons_self _ _)
    have hstep := push_step_ok f t hn ht
    have htexts : (lastN (f.n_lines.toNat - 1) f.buffer ++
        [({ text := t, bitmap := none, w := 0, h := 0 } : scroll_entry_t)]).map
          scroll_entry_t.text = lastN f.n_lines.toNat (f.buffer.map scroll_entry_t.text ++ [t]) := by
      rw [← lastN_snoc f.n_lines.toNat (by omega), lastN_map]
      simp
    by_cases hr : rest = []
    · subst hr
      refine ⟨{ f with buffer := lastN (f.n_lines.toNat - 1) f.buffer ++
        [{ text := t, bitmap := none, w := 0, h := 0 }] }, ?_, htexts, rfl, rfl, rfl⟩
      simp [push_lines, hstep]
    · obtain ⟨f2, h2, htx, hn2, hc2, hi2⟩ := ih
        { f with buffer := lastN (f.n_lines.toNat - 1) f.buffer ++
          [{ text := t, bitmap := none, w := 0, h := 0 }] } hn
        (fun u hu => hne u (List.mem_cons_of_mem _ hu)) hr
      refine ⟨f2, ?_, ?_, hn2, hc2, hi2⟩
      · simp only [push_lines, hstep]
        exact h2
      · rw [htx, htexts, lastN_append_lastN]
        simp

/-! ## Claims C1 and C2: the bounded line buffer -/

/-- C1: with a capacity `n_lines` of at least one, pushing non-empty lines one
after another from an empty buffer succeeds, and after each push (after the
first `k` lines, for every `k`) the buffer holds at most `n_lines` entries
whose texts are the last `min k n_lines` pushed lines in push order. -/
theorem push_lines_fifo (f : filter_scroll) (lines : List (List Byte)) (k : Nat)
    (hn : 1 ≤ f.n_lines) (hempty : f.buffer = []) (hne : ∀ t ∈ lines, t ≠ []) :
    ∃ f1, push_lines f (lines.take k) = .ok f1 ∧
      (f1.buffer.length : Int) ≤ f.n_lines ∧
      f1.buffer.map scroll_entry_t.text =
        lastN (min (lines.take k).length f.n_lines.toNat) (lines.take k) := by
  by_cases hk : lines.take k = []
  · rw [hk]
    refine ⟨f, rfl, ?_, ?_⟩
    · rw [hempty]; simp; omega
    · rw [hempty]; simp [lastN]
  · obtain ⟨f1, h1, htx, _, _, _⟩ := push_lines_ok (lines.take k) f hn
      (fun t ht => hne t (List.mem_of_mem_take ht)) hk
    refine ⟨f1, h1, ?_, ?_⟩
    · have hl := congrArg List.length htx
      rw [hempty] at hl
      simp only [List.length_map, List.map_nil, List.nil_append, lastN_length] at hl
      omega
    · rw [htx, hempty]
      simp only [List.map_nil, List.nil_append, lastN]
      congr 1
      omega

/-- C1, at the example of the specification: capacity 2 and the pushes "A",
"B", "C". -/
theorem push_lines_fifo_witness :
    ∃ f1, push_lines (construct 0 0 (-1) 2 1000000) ([str "A", str "B", str "C"].take 3) = .ok f1 ∧
      (f1.buffer.length : Int) ≤ (construct 0 0 (-1) 2 1000000).n_lines ∧
      f1.buffer.map scroll_entry_t.text =
        lastN (min ([str "A", str "B", str "C"].take 3).length
          (construct 0 0 (-1) 2 1000000).n_lines.toNat) ([str "A", str "B", str "C"].take 3) :=
  push_lines_fifo (construct 0 0 (-1) 2 1000000) [str "A", str "B", str "C"] 3
    (by decide) rfl (by decide)

/-- C2 (the code faults): with capacity zero every push of a non-empty line
ends in the out-of-range fault of `buffer.at(0)`, whatever the buffer holds;
it does not complete and leave the buffer empty. -/
theorem push_step_capacity_zero (f : filter_scroll) (data : List Byte)
    (hn : f.n_lines = 0) (hd : data ≠ []) :
    push_step f true data = .error .out_of_range := by
  have he : data.isEmpty = false := by
    cases data with
    | nil => exact absurd rfl hd
    | cons a l => rfl
  simp [push_step, he, hn, evict_zero]

/-- C2 at the failing input: capacity 0, empty buffer, the line "A". -/
theorem push_step_capacity_zero_witness :
    push_step (construct 0 0 (-1) 0 1000000) true (str "A") = .error .out_of_range :=
  push_step_capacity_zero (construct 0 0 (-1) 0 1000000) (str "A") rfl (by decide)

/-! ## The text source channel -/

theorem replace_cr_terminated (c : List Byte) (h : NUL ∉ c) :
    replace_cr (c ++ [NUL]) = cr_to_space c ++ [NUL] := by
  induction c with
  | nil => simp [replace_cr, cr_to_space]
  | cons b rest ih =>
    have hb : b ≠ NUL := fun e => h (by simp [e])
    have hr : NUL ∉ rest := fun e => h (List.mem_cons_of_mem _ e)
    have ih1 := ih hr
    simp only [cr_to_space] at ih1
    by_cases hc : b = CR
    · subst hc
      have hne : ¬ CR = NUL := by decide
      simp [replace_cr, cr_to_space, hne, ih1]
    · simp [replace_cr, cr_to_space, hb, hc, ih1]

theorem cr_to_space_no_nul (c : List Byte) (h : NUL ∉ c) : NUL ∉ cr_to_space c := by
  intro hm
  simp only [cr_to_space, List.mem_map] at hm
  obtain ⟨b, hb, he⟩ := hm
  by_cases hc : b = CR
  · rw [if_pos hc] at he; exact absurd he (by decide)
  · rw [if_neg hc] at he; exact h (he ▸ hb)

theorem c_str_terminated (l : List Byte) (h : NUL ∉ l) : c_str (l ++ [NUL]) = l := by
  induction l with
  | nil => simp [c_str]
  | cons b rest ih =>
    have hb : b ≠ NUL := fun e => h (by simp [e])
    have hr : NUL ∉ rest := fun e => h (List.mem_cons_of_mem _ e)
    simp [c_str, hb, ih hr]

/-- What a successful read appends to the accumulator. -/
theorem appended_chunk (c : List Byte) (h : NUL ∉ c) :
    c_str (replace_cr (c ++ [NUL])) = cr_to_space c := by
  rw [replace_cr_terminated c h, c_str_terminated _ (cr_to_space_no_nul c h)]

theorem find_none (ch : Byte) (s : List Byte) : find ch s = none ↔ ch ∉ s := by
  induction s with
  | nil => simp [find]
  | cons b rest ih =>
    by_cases hb : b = ch
    · simp [find, hb]
    · have hb2 : ¬ ch = b := fun e => hb e.symm
      cases hf : find ch rest with
      | none => simp [find, hb, hb2, hf, ← ih]
      | some i =>
        have : ch ∈ rest := by
          by_contra hc
          rw [ih.mpr hc] at hf
          cases hf
        simp [find, hb, hf, this]

theorem find_some (ch : Byte) (s : List Byte) (i : Nat) (h : find ch s = some i) :
    s = s.take i ++ ch :: s.drop (i + 1) ∧ ch ∉ s.take i := by
  induction s generalizing i with
  | nil => simp [find] at h
  | cons b rest ih =>
    by_cases hb : b = ch
    · simp only [find, hb, if_true, Option.some.injEq] at h
      subst h
      simp [hb]
    · cases hf : find ch rest with
      | none => simp [find, hb, hf] at h
      | some j =>
        simp only [find, hb, hf, if_false, Option.some.injEq] at h
        subst h
        obtain ⟨h1, h2⟩ := ih j hf
        have hb2 : ¬ ch = b := fun e => hb e.symm
        constructor
        · simp only [List.take_succ_cons, List.drop_succ_cons, List.cons_append, List.cons.injEq,
            true_and]
          exact h1
        · simp [List.take_succ_cons, hb2, h2]

theorem split_lines_no_lf (s : List Byte) (h : LF ∉ s) : split_lines s = ([], s) := by
  induction s with
  | nil => rfl
  | cons b rest ih =>
    have hb : b ≠ LF := fun e => h (by simp [e])
    have hr : LF ∉ rest := fun e => h (List.mem_cons_of_mem _ e)
    simp [split_lines, ih hr, hb]

theorem split_lines_line (pre post : List Byte) (h : LF ∉ pre) :
    split_lines (pre ++ LF :: post) = (pre :: (split_lines post).1, (split_lines post).2) := by
  induction pre with
  | nil =>
    simp only [List.nil_append, split_lines]
    rcases hs : split_lines post with ⟨ls, r⟩
    cases ls <;> simp
  | cons b rest ih =>
    have hb : b ≠ LF := fun e => h (by simp [e])
    have hr : LF ∉ rest := fun e => h (List.mem_cons_of_mem _ e)
    have ih1 : split_lines (rest.append (LF :: post)) =
        (rest :: (split_lines post).1, (split_lines post).2) := ih hr
    simp only [List.cons_append, split_lines, if_neg hb]
    rw [ih1]

/-- The first line of an accumulator that holds a line feed stays the first
line when more bytes follow. -/
theorem split_lines_first (a x : List Byte) (lf : Nat) (h : find LF a = some lf) :
    split_lines (a ++ x) =
      (a.take lf :: (split_lines (a.drop (lf + 1) ++ x)).1,
        (split_lines (a.drop (lf + 1) ++ x)).2) := by
  obtain ⟨h1, h2⟩ := find_some LF a lf h
  have h3 : a ++ x = a.take lf ++ LF :: (a.drop (lf + 1) ++ x) := by
    conv_lhs => rw [h1]
    simp
  rw [h3, split_lines_line _ _ h2]

theorem scan_line_some (f : filter_scroll) (lf : Nat) (h : find LF f.in_buffer = some lf) :
    scan_line f = ({ f with in_buffer := f.in_buffer.drop (lf + 1) }, true, f.in_buffer.take lf) := by
  simp [scan_line, h]

theorem scan_line_none (f : filter_scroll) (h : LF ∉ f.in_buffer) :
    scan_line f = (f, false, []) := by
  simp [scan_line, (find_none LF f.in_buffer).mpr h]

/-- A successful read of a chunk without NUL: the chunk, with its carriage
returns turned into spaces, is appended and the accumulator is scanned. -/
theorem poll_for_data_data (f : filter_scroll) (c : List Byte) (hc : c ≠ []) (hnul : NUL ∉ c) :
    poll_for_data f (.data c) =
      scan_line { f with in_buffer := f.in_buffer ++ cr_to_space c } := by
  have hl : ¬ ((c.length : Int) ≤ 0) := by
    have := List.length_pos.mpr hc
    omega
  simp only [poll_for_data, if_neg hl, appended_chunk c hnul]

/-- An empty read (end of file) restarts the process and returns no line. -/
theorem poll_for_data_eof (f : filter_scroll) :
    poll_for_data f (.data []) = (restart_process f, false, []) := by
  simp [poll_for_data]

theorem split_lines_rest_no_lf (s : List Byte) : LF ∉ (split_lines s).2 := by
  induction s with
  | nil => simp [split_lines]
  | cons b rest ih =>
    rcases hs : split_lines rest with ⟨ls, r⟩
    rw [hs] at ih
    cases ls with
    | nil =>
      by_cases hb : b = LF
      · simpa [split_lines, hs, hb] using ih
      · have hb2 : ¬ LF = b := fun e => hb e.symm
        simpa [split_lines, hs, hb, hb2] using ih
    | cons l ls =>
      by_cases hb : b = LF
      · simpa [split_lines, hs, hb] using ih
      · simpa [split_lines, hs, hb] using ih

/-- Draining with enough polls returns the logical lines of the accumulator
and leaves its unterminated rest. -/
theorem drain_spec (fuel : Nat) :
    ∀ f : filter_scroll, f.in_buffer.length < fuel →
      drain fuel f =
        ({ f with in_buffer := (split_lines f.in_buffer).2 }, (split_lines f.in_buffer).1) := by
  induction fuel with
  | zero => intro f h; omega
  | succ fuel ih =>
    intro f hlen
    cases hf : find LF f.in_buffer with
    | none =>
      have hno := (find_none LF f.in_buffer).mp hf
      simp only [drain, poll_for_data, scan_line_none f hno, split_lines_no_lf _ hno]
    | some lf =>
      obtain ⟨h1, _⟩ := find_some LF f.in_buffer lf hf
      have hl := congrArg List.length h1
      simp only [List.length_append, List.length_cons, List.length_take, List.length_drop] at hl
      have hlt : ({ f with in_buffer := f.in_buffer.drop (lf + 1) } : filter_scroll).in_buffer.length
          < fuel := by
        simp only [List.length_drop]
        omega
      have hsp := split_lines_first f.in_buffer [] lf hf
      simp only [List.append_nil] at hsp
      simp only [drain, poll_for_data, scan_line_some f lf hf, ih _ hlt, hsp]

/-- The calls that read the chunks return a first part of the logical lines
of the whole stream; the rest is still in the accumulator. -/
theorem feed_spec (chunks : List (List Byte)) :
    ∀ f : filter_scroll, (∀ c ∈ chunks, NUL ∉ c) → ∀ x : List Byte,
      split_lines (f.in_buffer ++ cr_to_space chunks.flatten ++ x) =
        ((feed f chunks).2 ++ (split_lines ((feed f chunks).1.in_buffer ++ x)).1,
          (split_lines ((feed f chunks).1.in_buffer ++ x)).2) := by
  induction chunks with
  | nil =>
    intro f _ x
    simp [feed, cr_to_space]
  | cons c rest ih =>
    intro f hn x
    have hc : NUL ∉ c := hn c (List.mem_cons_self _ _)
    have hrest : ∀ d ∈ rest, NUL ∉ d := fun d hd => hn d (List.mem_cons_of_mem _ hd)
    have hjoin : f.in_buffer ++ cr_to_space (c :: rest).flatten ++ x =
        (f.in_buffer ++ cr_to_space c) ++ cr_to_space rest.flatten ++ x := by
      simp [cr_to_space]
    by_cases hce : c = []
    · subst hce
      have h0 := ih (restart_process f) hrest x
      simp only [feed, poll_for_data_eof]
      rw [← h0]
      simp [cr_to_space, restart_process]
    · rw [hjoin]
      cases hf : find LF (f.in_buffer ++ cr_to_space c) with
      | none =>
        have hno := (find_none LF _).mp hf
        have hs : poll_for_data f (.data c) =
            ({ f with in_buffer := f.in_buffer ++ cr_to_space c }, false, []) := by
          rw [poll_for_data_data f c hce hc]
          exact scan_line_none _ hno
        simp only [feed, hs]
        exact ih { f with in_buffer := f.in_buffer ++ cr_to_space c } hrest x
      | some lf =>
        have hs : poll_for_data f (.data c) =
            ({ f with in_buffer := (f.in_buffer ++ cr_to_space c).drop (lf + 1) }, true,
              (f.in_buffer ++ cr_to_space c).take lf) := by
          rw [poll_for_data_data f c hce hc]
          exact scan_line_some _ lf hf
        have h1 := split_lines_first (f.in_buffer ++ cr_to_space c) (cr_to_space rest.flatten ++ x)
          lf hf
        have h2 := ih { f with in_buffer := (f.in_buffer ++ cr_to_space c).drop (lf + 1) } hrest x
        simp only [List.append_assoc] at h1 h2 ⊢
        simp only [feed, hs]
        rw [h1, h2]
        simp

/-- The lines of a whole session are the logical lines of the accumulator
followed by the stream with its carriage returns turned into spaces; the
unterminated rest stays in the accumulator. -/
theorem session_spec (f : filter_scroll) (chunks : List (List Byte))
    (hn : ∀ c ∈ chunks, NUL ∉ c) :
    (session f chunks).2 = (split_lines (f.in_buffer ++ cr_to_space chunks.flatten)).1 ∧
      (session f chunks).1.in_buffer =
        (split_lines (f.in_buffer ++ cr_to_space chunks.flatten)).2 := by
  have h1 := feed_spec chunks f hn []
  simp only [List.append_nil] at h1
  have h2 := drain_spec ((feed f chunks).1.in_buffer.length + 1) (feed f chunks).1 (by omega)
  simp only [session, h2, h1]
  exact ⟨trivial, trivial⟩

theorem cr_to_space_idem (s : List Byte) : cr_to_space (cr_to_space s) = cr_to_space s := by
  simp only [cr_to_space, List.map_map]
  apply List.map_congr_left
  intro b _
  by_cases hb : b = CR
  · simp [hb, SP, CR]
  · simp [hb]

/-! ## Claims C3, C4 and C5: poll_for_data -/

/-- C3: a successfully read chunk `c` (non-empty, without NUL) is appended to
the accumulator `a` with its carriage returns replaced by spaces; if the new
accumulator holds a line feed the call returns `(true, text before the first
line feed)` and keeps the text behind that line feed, otherwise it returns
`(false, "")` and the accumulator stays `a ++ c'`. In particular reading
"foo\r" from an empty accumulator returns no line, and then reading "bar\n"
returns the line "foo bar" and leaves the accumulator empty. -/
theorem poll_for_data_chunk (f : filter_scroll) (c : List Byte) (hc : c ≠ []) (hnul : NUL ∉ c) :
    (LF ∈ f.in_buffer ++ cr_to_space c →
      ∃ pre post, f.in_buffer ++ cr_to_space c = pre ++ LF :: post ∧ LF ∉ pre ∧
        poll_for_data f (.data c) = ({ f with in_buffer := post }, true, pre)) ∧
    (LF ∉ f.in_buffer ++ cr_to_space c →
      poll_for_data f (.data c) =
        ({ f with in_buffer := f.in_buffer ++ cr_to_space c }, false, [])) ∧
    poll_for_data (construct 0 0 (-1) 2 1000000) (.data (str "foo\r")) =
      ({ construct 0 0 (-1) 2 1000000 with in_buffer := str "foo " }, false, []) ∧
    poll_for_data { construct 0 0 (-1) 2 1000000 with in_buffer := str "foo " }
        (.data (str "bar\n")) =
      ({ construct 0 0 (-1) 2 1000000 with in_buffer := [] }, true, str "foo bar") := by
  refine ⟨?_, ?_, by decide, by decide⟩
  · intro hmem
    cases hf : find LF (f.in_buffer ++ cr_to_space c) with
    | none => exact absurd hmem ((find_none LF _).mp hf)
    | some lf =>
      obtain ⟨h1, h2⟩ := find_some LF _ lf hf
      refine ⟨_, _, h1, h2, ?_⟩
      rw [poll_for_data_data f c hc hnul]
      exact scan_line_some _ lf hf
  · intro hno
    rw [poll_for_data_data f c hc hnul]
    exact scan_line_none _ hno

/-- C3 at the second read of the example: "bar\n" arrives while the
accumulator holds "foo ". -/
theorem poll_for_data_chunk_witness :
    (LF ∈ str "foo " ++ cr_to_space (str "bar\n") →
      ∃ pre post, str "foo " ++ cr_to_space (str "bar\n") = pre ++ LF :: post ∧ LF ∉ pre ∧
        poll_for_data { construct 0 0 (-1) 2 1000000 with in_buffer := str "foo " }
            (.data (str "bar\n")) =
          ({ construct 0 0 (-1) 2 1000000 with in_buffer := post }, true, pre)) ∧
    (LF ∉ str "foo " ++ cr_to_space (str "bar\n") →
      poll_for_data { construct 0 0 (-1) 2 1000000 with in_buffer := str "foo " }
          (.data (str "bar\n")) =
        ({ construct 0 0 (-1) 2 1000000 with
            in_buffer := str "foo " ++ cr_to_space (str "bar\n") }, false, [])) ∧
    poll_for_data (construct 0 0 (-1) 2 1000000) (.data (str "foo\r")) =
      ({ construct 0 0 (-1) 2 1000000 with in_buffer := str "foo " }, false, []) ∧
    poll_for_data { construct 0 0 (-1) 2 1000000 with in_buffer := str "foo " }
        (.data (str "bar\n")) =
      ({ construct 0 0 (-1) 2 1000000 with in_buffer := [] }, true, str "foo bar") :=
  poll_for_data_chunk { construct 0 0 (-1) 2 1000000 with in_buffer := str "foo " }
    (str "bar\n") (by decide) (by decide)

/-- C4 as stated fails: the reads "foo\r" and "bar\n" give the line
"foo bar", while the same stream with its carriage return stripped, read at
once, gives the line "foobar". -/
theorem session_stripped_differs :
    (session (construct 0 0 (-1) 2 1000000) [str "foo\r", str "bar\n"]).2 = [str "foo bar"] ∧
    (session (construct 0 0 (-1) 2 1000000) [strip_cr (str "foo\rbar\n")]).2 = [str "foobar"] ∧
    (session (construct 0 0 (-1) 2 1000000) [str "foo\r", str "bar\n"]).2 ≠
      (session (construct 0 0 (-1) 2 1000000) [strip_cr ([str "foo\r", str "bar\n"].flatten)]).2 := by
  decide

/-- C4, amended: for chunks without NUL delivered to successive calls and
then drained by polls without new bytes, the lines returned are the same, in
the same order, as when the whole stream with every carriage return replaced
by a space is delivered by one read and drained; both are the logical lines
of the accumulator followed by that stream, and in both sessions the draining
ended because a poll returned no line. -/
theorem session_chunking (f : filter_scroll) (chunks : List (List Byte))
    (hne : ∀ c ∈ chunks, c ≠ [] ∧ NUL ∉ c) :
    (session f chunks).2 = (session f [cr_to_space chunks.flatten]).2 ∧
    (session f chunks).2 = (split_lines (f.in_buffer ++ cr_to_space chunks.flatten)).1 ∧
    (poll_for_data (session f chunks).1 .not_ready).2 = (false, []) ∧
    (poll_for_data (session f [cr_to_space chunks.flatten]).1 .not_ready).2 = (false, []) := by
  have hn : ∀ c ∈ chunks, NUL ∉ c := fun c hc => (hne c hc).2
  have hj : NUL ∉ chunks.flatten := by
    intro hm
    obtain ⟨c, hc, hmem⟩ := List.mem_flatten.mp hm
    exact hn c hc hmem
  have hone : ∀ c ∈ [cr_to_space chunks.flatten], NUL ∉ c := by
    intro c hc
    rw [List.mem_singleton] at hc
    rw [hc]
    exact cr_to_space_no_nul _ hj
  obtain ⟨h1, h2⟩ := session_spec f chunks hn
  obtain ⟨h3, h4⟩ := session_spec f [cr_to_space chunks.flatten] hone
  simp only [List.flatten, List.append_nil, cr_to_space_idem] at h3 h4
  refine ⟨by rw [h1, h3], h1, ?_, ?_⟩
  · have hno : LF ∉ (session f chunks).1.in_buffer := by
      rw [h2]; exact split_lines_rest_no_lf _
    simp only [poll_for_data, scan_line_none _ hno]
  · have hno : LF ∉ (session f [cr_to_space chunks.flatten]).1.in_buffer := by
      rw [h4]; exact split_lines_rest_no_lf _
    simp only [poll_for_data, scan_line_none _ hno]

/-- C4, amended, at the example: the reads "foo\r" and "bar\nbaz\n". -/
theorem session_chunking_witness :
    (session (construct 0 0 (-1) 2 1000000) [str "foo\r", str "bar\nbaz\n"]).2 =
      (session (construct 0 0 (-1) 2 1000000)
        [cr_to_space [str "foo\r", str "bar\nbaz\n"].flatten]).2 ∧
    (session (construct 0 0 (-1) 2 1000000) [str "foo\r", str "bar\nbaz\n"]).2 =
      (split_lines ((construct 0 0 (-1) 2 1000000).in_buffer ++
        cr_to_space [str "foo\r", str "bar\nbaz\n"].flatten)).1 ∧
    (poll_for_data (session (construct 0 0 (-1) 2 1000000)
      [str "foo\r", str "bar\nbaz\n"]).1 .not_ready).2 = (false, []) ∧
    (poll_for_data (session (construct 0 0 (-1) 2 1000000)
      [cr_to_space [str "foo\r", str "bar\nbaz\n"].flatten]).1 .not_ready).2 = (false, []) :=
  session_chunking (construct 0 0 (-1) 2 1000000) [str "foo\r", str "bar\nbaz\n"] (by decide)

/-- C5 as stated fails: after the read "x\na\n" has returned the line "x" the
accumulator holds "a\n", and a poll that finds nothing to read returns the
line "a" and empties the accumulator. -/
theorem poll_idle_returns_buffered_line :
    poll_for_data (construct 0 0 (-1) 2 1000000) (.data (str "x\na\n")) =
      ({ construct 0 0 (-1) 2 1000000 with in_buffer := str "a\n" }, true, str "x") ∧
    poll_for_data { construct 0 0 (-1) 2 1000000 with in_buffer := str "a\n" } .not_ready =
      ({ construct 0 0 (-1) 2 1000000 with in_buffer := [] }, true, str "a") ∧
    poll_for_data { construct 0 0 (-1) 2 1000000 with in_buffer := str "a\n" } .not_ready ≠
      ({ construct 0 0 (-1) 2 1000000 with in_buffer := str "a\n" }, false, []) := by
  decide

/-- C5, amended: when the accumulator holds no line feed, a poll that finds
nothing to read returns no line and leaves the state as it is, and so does
every further such poll (the poll after `n` earlier ones, for every `n`). -/
theorem poll_idle_no_line (f : filter_scroll) (n : Nat) (h : LF ∉ f.in_buffer) :
    poll_for_data (poll_idle^[n] f) .not_ready = (f, false, []) := by
  have h1 : poll_for_data f .not_ready = (f, false, []) := by
    simp only [poll_for_data, scan_line_none f h]
  have h2 : poll_idle f = f := by simp only [poll_idle, h1]
  rw [Function.iterate_fixed h2 n, h1]

/-- C5, amended, at the accumulator "foo " and three earlier polls. -/
theorem poll_idle_no_line_witness :
    poll_for_data (poll_idle^[3] { construct 0 0 (-1) 2 1000000 with in_buffer := str "foo " })
        .not_ready =
      ({ construct 0 0 (-1) 2 1000000 with in_buffer := str "foo " }, false, []) :=
  poll_idle_no_line { construct 0 0 (-1) 2 1000000 with in_buffer := str "foo " } 3 (by decide)

/-! ## The blitter -/

theorem pix_inj (w X Y c X' Y' c' : Int) (hX : 0 ≤ X) (hXw : X < w) (hX' : 0 ≤ X')
    (hXw' : X' < w) (hc : 0 ≤ c) (hc3 : c < 3) (hc' : 0 ≤ c') (hc3' : c' < 3)
    (h : pix w X Y c = pix w X' Y' c') : X = X' ∧ Y = Y' ∧ c = c' := by
  unfold pix at h
  have h1 : Y * w + X = Y' * w + X' := by omega
  have h2 : c = c' := by omega
  have h3 : Y = Y' := by
    rcases lt_trichotomy Y Y' with hlt | heq | hgt
    · exfalso
      have : (Y + 1) * w ≤ Y' * w := Int.mul_le_mul_of_nonneg_right (by omega) (by omega)
      have e : (Y + 1) * w = Y * w + w := by ring
      omega
    · exact heq
    · exfalso
      have : (Y' + 1) * w ≤ Y * w := Int.mul_le_mul_of_nonneg_right (by omega) (by omega)
      have e : (Y' + 1) * w = Y' * w + w := by ring
      omega
  subst h3
  exact ⟨by omega, rfl, h2⟩

theorem pix_bound (w h X Y c : Int) (hX : 0 ≤ X) (hXw : X < w) (hY : 0 ≤ Y) (hYh : Y < h)
    (hc : 0 ≤ c) (hc3 : c < 3) : 0 ≤ pix w X Y c ∧ pix w X Y c + (2 - c) < w * h * 3 := by
  unfold pix
  have h1 : (Y + 1) * w ≤ h * w := Int.mul_le_mul_of_nonneg_right (by omega) (by omega)
  have h2 : 0 ≤ Y * w := Int.mul_nonneg hY (by omega)
  have e1 : (Y + 1) * w = Y * w + w := by ring
  have e2 : w * h = h * w := Int.mul_comm w h
  constructor
  · omega
  · omega

theorem load_ok (m : List Byte) (i : Int) (h0 : 0 ≤ i) (h1 : i < m.length) :
    load m i = .ok (m.getD i.toNat 0) := by
  simp [load, h0, h1]

theorem store_ok (m : List Byte) (i : Int) (v : Byte) (h0 : 0 ≤ i) (h1 : i < m.length) :
    store m i v = .ok (m.set i.toNat v) := by
  simp [store, h0, h1]

theorem load_set (m : List Byte) (i j : Int) (v : Byte) (h0 : 0 ≤ i) (h1 : i < m.length) :
    load (m.set i.toNat v) j = if j = i then .ok v else load m j := by
  by_cases hj : j = i
  · subst hj
    have h2 : j.toNat < m.length := by omega
    simp [load, h0, h1, List.getD_eq_getElem?_getD, List.getElem?_set, h2]
  · rw [if_neg hj]
    unfold load
    simp only [List.length_set]
    by_cases hr : 0 ≤ j ∧ j < m.length
    · have hne : i.toNat ≠ j.toNat := by omega
      simp [hr, List.getD_eq_getElem?_getD, List.getElem?_set_ne hne]
    · simp [hr]

/-- The three channel copies of a pixel succeed when both pixels lie inside
their buffers; the destination changes at these three bytes only. -/
theorem copy_pixel_spec (out inp : List Byte) (t s : Int) (ht : 0 ≤ t)
    (ht2 : t + 2 < out.length) (hs : 0 ≤ s) (hs2 : s + 2 < inp.length) :
    ∃ out1, copy_pixel out inp t s = .ok out1 ∧ out1.length = out.length ∧
      (∀ c : Int, 0 ≤ c → c < 3 → load out1 (t + c) = load inp (s + c)) ∧
      (∀ j : Int, j < t ∨ t + 3 ≤ j → load out1 j = load out j) := by
  have l0 := load_ok inp (s + 0) (by omega) (by omega)
  have l1 := load_ok inp (s + 1) (by omega) (by omega)
  have l2 := load_ok inp (s + 2) (by omega) (by omega)
  have s0 := store_ok out (t + 0) (inp.getD (s + 0).toNat 0) (by omega) (by omega)
  have s1 := store_ok (out.set (t + 0).toNat (inp.getD (s + 0).toNat 0)) (t + 1)
    (inp.getD (s + 1).toNat 0) (by omega) (by simp only [List.length_set]; omega)
  have s2 := store_ok ((out.set (t + 0).toNat (inp.getD (s + 0).toNat 0)).set (t + 1).toNat
    (inp.getD (s + 1).toNat 0)) (t + 2) (inp.getD (s + 2).toNat 0) (by omega)
    (by simp only [List.length_set]; omega)
  have key : copy_pixel out inp t s = .ok
      (((out.set (t + 0).toNat (inp.getD (s + 0).toNat 0)).set (t + 1).toNat
        (inp.getD (s + 1).toNat 0)).set (t + 2).toNat (inp.getD (s + 2).toNat 0)) := by
    simp only [copy_pixel, l0, l1, l2, s0, s1]
    exact s2
  refine ⟨_, key, ?_, ?_, ?_⟩
  · simp only [List.length_set]
  · intro c hc0 hc3
    rw [load_set _ (t + 2) _ _ (by omega) (by simp only [List.length_set]; omega),
      load_set _ (t + 1) _ _ (by omega) (by simp only [List.length_set]; omega),
      load_set _ (t + 0) _ _ (by omega) (by omega)]
    have hc : c = 0 ∨ c = 1 ∨ c = 2 := by omega
    rcases hc with hc | hc | hc
    · subst hc
      rw [if_neg (by omega), if_neg (by omega), if_pos rfl, l0]
    · subst hc
      rw [if_neg (by omega), if_pos rfl, l1]
    · subst hc
      rw [if_pos rfl, l2]
  · intro j hj
    rw [load_set _ (t + 2) _ _ (by omega) (by simp only [List.length_set]; omega),
      load_set _ (t + 1) _ _ (by omega) (by simp only [List.length_set]; omega),
      load_set _ (t + 0) _ _ (by omega) (by omega)]
    rw [if_neg (by omega), if_neg (by omega), if_neg (by omega)]

/-- The column loop on a row inside the destination: it succeeds and copies
the source pixels of columns `wx` to `wx + n - 1` of row `wy` that fall
inside the destination row `ty`; every other pixel keeps its value. -/
theorem blit_cols_spec (w h x : Int) (inp : List Byte) (in_w in_h wy ty out_offset : Int)
    (hin : (inp.length : Int) = in_w * in_h * 3)
    (hty : 0 ≤ ty) (htyh : ty < h) (hwy : 0 ≤ wy) (hwyh : wy < in_h)
    (hoff : out_offset = ty * w * 3) (n : Nat) :
    ∀ (wx : Int) (out : List Byte), 0 ≤ wx → (0 < n → wx + n ≤ in_w) →
      (out.length : Int) = w * h * 3 →
      ∃ out1, blit_cols w x inp in_w wy out_offset n wx out = .ok out1 ∧
        out1.length = out.length ∧
        ∀ X Y c : Int, 0 ≤ X → X < w → 0 ≤ Y → Y < h → 0 ≤ c → c < 3 →
          load out1 (pix w X Y c) =
            if Y = ty ∧ wx ≤ X - x ∧ X - x < wx + n then load inp (pix in_w (X - x) wy c)
            else load out (pix w X Y c) := by
  induction n with
  | zero =>
    intro wx out _ _ _
    refine ⟨out, rfl, rfl, ?_⟩
    intro X Y c _ _ _ _ _ _
    rw [if_neg (by omega)]
  | succ n ih =>
    intro wx out hwx hn hout
    have hn1 : wx + (n + 1 : Nat) ≤ in_w := hn (by omega)
    have hih := ih (wx + 1)
    by_cases hskip : wx + x ≥ w ∨ wx + x < 0
    · obtain ⟨out1, h1, h2, h3⟩ := hih out (by omega) (by intro _; push_cast at hn1 ⊢; omega) hout
      refine ⟨out1, ?_, h2, ?_⟩
      · simp only [blit_cols, if_pos hskip]
        exact h1
      · intro X Y c hX hXw hY hYh hc hc3
        rw [h3 X Y c hX hXw hY hYh hc hc3]
        by_cases hcond : Y = ty ∧ wx + 1 ≤ X - x ∧ X - x < wx + 1 + n
        · rw [if_pos hcond, if_pos (by push_cast; omega)]
        · rw [if_neg hcond, if_neg (by push_cast; omega)]
    · have htx0 : 0 ≤ wx + x := by omega
      have htxw : wx + x < w := by omega
      have hb := pix_bound w h (wx + x) ty 0 htx0 htxw hty htyh (by omega) (by omega)
      have hbi := pix_bound in_w in_h wx wy 0 hwx (by push_cast at hn1; omega) hwy hwyh
        (by omega) (by omega)
      have et : out_offset + (wx + x) * 3 = pix w (wx + x) ty 0 := by
        unfold pix; rw [hoff]; ring
      have es : wy * in_w * 3 + wx * 3 = pix in_w wx wy 0 := by
        unfold pix; ring
      obtain ⟨outp, hp1, hp2, hp3, hp4⟩ := copy_pixel_spec out inp (pix w (wx + x) ty 0)
        (pix in_w wx wy 0) hb.1 (by omega) hbi.1 (by omega)
      obtain ⟨out1, h1, h2, h3⟩ := hih outp (by omega) (by intro _; push_cast at hn1 ⊢; omega)
        (by rw [hp2]; exact hout)
      refine ⟨out1, ?_, by rw [h2, hp2], ?_⟩
      · simp only [blit_cols, if_neg hskip, et, es, hp1]
        exact h1
      · intro X Y c hX hXw hY hYh hc hc3
        rw [h3 X Y c hX hXw hY hYh hc hc3]
        by_cases hcond : Y = ty ∧ wx + 1 ≤ X - x ∧ X - x < wx + 1 + n
        · rw [if_pos hcond, if_pos (by push_cast; omega)]
        · rw [if_neg hcond]
          by_cases hhere : Y = ty ∧ X - x = wx
          · obtain ⟨hYe, hXe⟩ := hhere
            have hXe2 : X = wx + x := by omega
            subst hYe
            rw [if_pos (by push_cast; omega)]
            have e1 : pix w X Y c = pix w (wx + x) Y 0 + c := by unfold pix; rw [hXe2]; ring
            have e2 : pix in_w (X - x) wy c = pix in_w wx wy 0 + c := by
              unfold pix; rw [hXe]; ring
            rw [e1, e2]
            exact hp3 c hc hc3
          · rw [if_neg (by push_cast; omega)]
            apply hp4
            by_contra hj
            have hj1 : pix w (wx + x) ty 0 ≤ pix w X Y c := by omega
            have hj2 : pix w X Y c < pix w (wx + x) ty 0 + 3 := by omega
            have e3 : pix w X Y c = pix w (wx + x) ty (pix w X Y c - pix w (wx + x) ty 0) := by
              unfold pix; ring
            obtain ⟨i1, i2, _⟩ := pix_inj w X Y c (wx + x) ty _ hX hXw htx0 htxw hc hc3
              (by omega) (by omega) e3
            exact hhere ⟨i2, by omega⟩

/-- The row loop: it succeeds and copies the source pixels of rows `wy` to
`wy + n - 1` and columns `off_x` to `in_w - 1` that fall inside the
destination; every other pixel keeps its value. Ending the loop at the first
row below the destination loses nothing. -/
theorem blit_rows_spec (w h x y : Int) (inp : List Byte) (in_w in_h off_x : Int)
    (hin : (inp.length : Int) = in_w * in_h * 3) (hox : 0 ≤ off_x) (n : Nat) :
    ∀ (wy : Int) (out : List Byte), 0 ≤ wy → (0 < n → wy + n ≤ in_h) →
      (out.length : Int) = w * h * 3 →
      ∃ out1, blit_rows w h x y inp in_w off_x n wy out = .ok out1 ∧
        out1.length = out.length ∧
        ∀ X Y c : Int, 0 ≤ X → X < w → 0 ≤ Y → Y < h → 0 ≤ c → c < 3 →
          load out1 (pix w X Y c) =
            if wy ≤ Y - y ∧ Y - y < wy + n ∧ off_x ≤ X - x ∧ X - x < in_w then
              load inp (pix in_w (X - x) (Y - y) c)
            else load out (pix w X Y c) := by
  induction n with
  | zero =>
    intro wy out _ _ _
    refine ⟨out, rfl, rfl, ?_⟩
    intro X Y c _ _ _ _ _ _
    rw [if_neg (by omega)]
  | succ n ih =>
    intro wy out hwy hn hout
    have hn1 : wy + (n + 1 : Nat) ≤ in_h := hn (by omega)
    have hih := ih (wy + 1)
    by_cases hbreak : y + wy ≥ h
    · refine ⟨out, ?_, rfl, ?_⟩
      · simp only [blit_rows, if_pos hbreak]
      · intro X Y c _ _ _ hYh _ _
        rw [if_neg (by omega)]
    · by_cases hcont : y + wy < 0
      · obtain ⟨out1, h1, h2, h3⟩ := hih out (by omega) (by intro _; push_cast at hn1 ⊢; omega)
          hout
        refine ⟨out1, ?_, h2, ?_⟩
        · simp only [blit_rows, if_neg hbreak, if_pos hcont]
          exact h1
        · intro X Y c hX hXw hY hYh hc hc3
          rw [h3 X Y c hX hXw hY hYh hc hc3]
          by_cases hcond : wy + 1 ≤ Y - y ∧ Y - y < wy + 1 + n ∧ off_x ≤ X - x ∧ X - x < in_w
          · rw [if_pos hcond, if_pos (by push_cast; omega)]
          · rw [if_neg hcond, if_neg (by push_cast; omega)]
      · obtain ⟨outr, hr1, hr2, hr3⟩ := blit_cols_spec w h x inp in_w in_h wy (y + wy)
          ((y + wy) * w * 3) hin (by omega) (by omega) hwy (by push_cast at hn1; omega) rfl
          (in_w - off_x).toNat off_x out hox (by intro hpos; omega) hout
        obtain ⟨out1, h1, h2, h3⟩ := hih outr (by omega)
          (by intro _; push_cast at hn1 ⊢; omega) (by rw [hr2]; exact hout)
        refine ⟨out1, ?_, by rw [h2, hr2], ?_⟩
        · simp only [blit_rows, if_neg hbreak, if_neg hcont, hr1]
          exact h1
        · intro X Y c hX hXw hY hYh hc hc3
          rw [h3 X Y c hX hXw hY hYh hc hc3, hr3 X Y c hX hXw hY hYh hc hc3]
          by_cases hcond : wy + 1 ≤ Y - y ∧ Y - y < wy + 1 + n ∧ off_x ≤ X - x ∧ X - x < in_w
          · rw [if_pos hcond, if_pos (by push_cast; omega)]
          · rw [if_neg hcond]
            by_cases hhere : Y = y + wy ∧ off_x ≤ X - x ∧ X - x < off_x + (in_w - off_x).toNat
            · rw [if_pos hhere, if_pos (by push_cast; omega)]
              have e : Y - y = wy := by omega
              rw [e]
            · rw [if_neg hhere, if_neg (by push_cast; omega)]

/-- The effect of `blit`, pixel by pixel: for buffers of the stated sizes
and offsets that are not negative the call succeeds, keeps the size of the
destination, and a destination pixel `(X, Y)` holds the source pixel
`(X - x, Y - y)` when `off_x ≤ X - x < in_w` and `off_y ≤ Y - y < in_h`, and
its old value otherwise. -/
theorem blit_spec (out : List Byte) (w h x y : Int) (inp : List Byte)
    (in_w in_h off_x off_y : Int) (hout : (out.length : Int) = w * h * 3)
    (hin : (inp.length : Int) = in_w * in_h * 3) (hox : 0 ≤ off_x) (hoy : 0 ≤ off_y) :
    ∃ out1, blit out w h x y inp in_w in_h off_x off_y = .ok out1 ∧
      out1.length = out.length ∧
      ∀ X Y c : Int, 0 ≤ X → X < w → 0 ≤ Y → Y < h → 0 ≤ c → c < 3 →
        load out1 (pix w X Y c) =
          if off_x ≤ X - x ∧ X - x < in_w ∧ off_y ≤ Y - y ∧ Y - y < in_h then
            load inp (pix in_w (X - x) (Y - y) c)
          else load out (pix w X Y c) := by
  obtain ⟨out1, h1, h2, h3⟩ := blit_rows_spec w h x y inp in_w in_h off_x hin hox
    (in_h - off_y).toNat off_y out hoy (by intro hpos; omega) hout
  refine ⟨out1, h1, h2, ?_⟩
  intro X Y c hX hXw hY hYh hc hc3
  rw [h3 X Y c hX hXw hY hYh hc hc3]
  by_cases hcond : off_x ≤ X - x ∧ X - x < in_w ∧ off_y ≤ Y - y ∧ Y - y < in_h
  · rw [if_pos hcond, if_pos (by omega)]
  · rw [if_neg hcond, if_neg (by omega)]

/-- The column loop writes nothing when none of its columns falls inside the
destination. -/
theorem blit_cols_skip (w x : Int) (inp : List Byte) (in_w wy out_offset : Int) (n : Nat) :
    ∀ (wx : Int) (out : List Byte),
      (∀ k : Int, wx ≤ k → k < wx + n → (k + x ≥ w ∨ k + x < 0)) →
      blit_cols w x inp in_w wy out_offset n wx out = .ok out := by
  induction n with
  | zero => intro wx out _; rfl
  | succ n ih =>
    intro wx out hall
    have hskip : wx + x ≥ w ∨ wx + x < 0 := hall wx (by omega) (by push_cast; omega)
    simp only [blit_cols, if_pos hskip]
    exact ih (wx + 1) out (fun k h1 h2 => hall k (by omega) (by push_cast; omega))

/-- The row loop writes nothing when none of the pixels it visits falls
inside the destination. -/
theorem blit_rows_skip (w h x y : Int) (inp : List Byte) (in_w off_x : Int) (n : Nat) :
    ∀ (wy : Int) (out : List Byte),
      (∀ r k : Int, wy ≤ r → r < wy + n → off_x ≤ k → k < in_w →
        ¬ (0 ≤ k + x ∧ k + x < w ∧ 0 ≤ y + r ∧ y + r < h)) →
      blit_rows w h x y inp in_w off_x n wy out = .ok out := by
  induction n with
  | zero => intro wy out _; rfl
  | succ n ih =>
    intro wy out hall
    have hrest := ih (wy + 1) out
      (fun r k h1 h2 h3 h4 => hall r k (by omega) (by push_cast; omega) h3 h4)
    by_cases hbreak : y + wy ≥ h
    · simp only [blit_rows, if_pos hbreak]
    · by_cases hcont : y + wy < 0
      · simp only [blit_rows, if_neg hbreak, if_pos hcont]
        exact hrest
      · have hc := blit_cols_skip w x inp in_w wy ((y + wy) * w * 3) (in_w - off_x).toNat off_x
          out (by
            intro k h1 h2
            have := hall wy k (by omega) (by push_cast; omega) h1 (by omega)
            omega)
        simp only [blit_rows, if_neg hbreak, if_neg hcont, hc]
        exact hrest

/-- Every in-range byte of a buffer can be read. -/
theorem load_pix (m : List Byte) (w h X Y c : Int) (hm : (m.length : Int) = w * h * 3)
    (hX : 0 ≤ X) (hXw : X < w) (hY : 0 ≤ Y) (hYh : Y < h) (hc : 0 ≤ c) (hc3 : c < 3) :
    ∃ b, load m (pix w X Y c) = .ok b := by
  have hb := pix_bound w h X Y c hX hXw hY hYh hc hc3
  exact ⟨_, load_ok m _ hb.1 (by omega)⟩

/-! ## Claims C6 and C7: the clipping law of the blitter -/

/-- C6: a source of `in_w` by `in_h` pixels blitted with `off_x = off_y = 0`
at a position `(x, y)` where it lies fully inside the destination of `w` by
`h` pixels: the call succeeds, every source pixel `(wx, wy)` appears byte for
byte (all three channels) at the destination pixel `(x + wx, y + wy)`, and
every destination pixel outside that rectangle keeps its value. -/
theorem blit_inside (out : List Byte) (w h x y : Int) (inp : List Byte) (in_w in_h : Int)
    (hout : (out.length : Int) = w * h * 3) (hin : (inp.length : Int) = in_w * in_h * 3)
    (hx : 0 ≤ x) (hxw : x + in_w ≤ w) (hy : 0 ≤ y) (hyh : y + in_h ≤ h) :
    ∃ out1, blit out w h x y inp in_w in_h 0 0 = .ok out1 ∧ out1.length = out.length ∧
      (∀ wx wy c : Int, 0 ≤ wx → wx < in_w → 0 ≤ wy → wy < in_h → 0 ≤ c → c < 3 →
        ∃ b, load inp (pix in_w wx wy c) = .ok b ∧
          load out1 (pix w (x + wx) (y + wy) c) = .ok b) ∧
      (∀ X Y c : Int, 0 ≤ X → X < w → 0 ≤ Y → Y < h → 0 ≤ c → c < 3 →
        ¬ (x ≤ X ∧ X < x + in_w ∧ y ≤ Y ∧ Y < y + in_h) →
        ∃ b, load out (pix w X Y c) = .ok b ∧ load out1 (pix w X Y c) = .ok b) := by
  obtain ⟨out1, h1, h2, h3⟩ := blit_spec out w h x y inp in_w in_h 0 0 hout hin
    (le_refl 0) (le_refl 0)
  refine ⟨out1, h1, h2, ?_, ?_⟩
  · intro wx wy c hwx hwxw hwy hwyh hc hc3
    obtain ⟨b, hb⟩ := load_pix inp in_w in_h wx wy c hin hwx hwxw hwy hwyh hc hc3
    refine ⟨b, hb, ?_⟩
    rw [h3 (x + wx) (y + wy) c (by omega) (by omega) (by omega) (by omega) hc hc3,
      if_pos (by omega)]
    have e1 : x + wx - x = wx := by omega
    have e2 : y + wy - y = wy := by omega
    rw [e1, e2, hb]
  · intro X Y c hX hXw hY hYh hc hc3 hnot
    obtain ⟨b, hb⟩ := load_pix out w h X Y c hout hX hXw hY hYh hc hc3
    refine ⟨b, hb, ?_⟩
    rw [h3 X Y c hX hXw hY hYh hc hc3, if_neg (by omega), hb]

/-- C7: when the target rectangle `[x, x + in_w) x [y, y + in_h)` has no
pixel inside the destination `[0, w) x [0, h)`, `blit` with offsets that are
not negative succeeds and returns the destination as it was, byte for byte. -/
theorem blit_outside (out : List Byte) (w h x y : Int) (inp : List Byte)
    (in_w in_h off_x off_y : Int) (hox : 0 ≤ off_x) (hoy : 0 ≤ off_y)
    (hdisj : ∀ wx wy : Int, 0 ≤ wx → wx < in_w → 0 ≤ wy → wy < in_h →
      ¬ (0 ≤ x + wx ∧ x + wx < w ∧ 0 ≤ y + wy ∧ y + wy < h)) :
    blit out w h x y inp in_w in_h off_x off_y = .ok out := by
  unfold blit
  apply blit_rows_skip
  intro r k h1 h2 h3 h4
  have := hdisj k r (by omega) h4 (by omega) (by omega)
  omega

/-- C6 at a source of 2 by 2 pixels placed at column 1, row 0 of a
destination of 4 by 2 pixels. -/
theorem blit_inside_witness :
    ∃ out1, blit (List.replicate 24 0) 4 2 1 0 [1, 2, 3, 4, 5, 6, 7, 8, 9, 10, 11, 12] 2 2 0 0 =
        .ok out1 ∧ out1.length = (List.replicate 24 (0 : Byte)).length ∧
      (∀ wx wy c : Int, 0 ≤ wx → wx < 2 → 0 ≤ wy → wy < 2 → 0 ≤ c → c < 3 →
        ∃ b, load [1, 2, 3, 4, 5, 6, 7, 8, 9, 10, 11, 12] (pix 2 wx wy c) = .ok b ∧
          load out1 (pix 4 (1 + wx) (0 + wy) c) = .ok b) ∧
      (∀ X Y c : Int, 0 ≤ X → X < 4 → 0 ≤ Y → Y < 2 → 0 ≤ c → c < 3 →
        ¬ (1 ≤ X ∧ X < 1 + 2 ∧ 0 ≤ Y ∧ Y < 0 + 2) →
        ∃ b, load (List.replicate 24 0) (pix 4 X Y c) = .ok b ∧
          load out1 (pix 4 X Y c) = .ok b) :=
  blit_inside (List.replicate 24 0) 4 2 1 0 [1, 2, 3, 4, 5, 6, 7, 8, 9, 10, 11, 12] 2 2
    (by decide) (by decide) (by decide) (by decide) (by decide) (by decide)

/-- C7 at a source of 2 by 2 pixels placed at column 4, right of a
destination of 4 by 2 pixels. -/
theorem blit_outside_witness :
    blit (List.replicate 24 0) 4 2 4 0 [1, 2, 3, 4, 5, 6, 7, 8, 9, 10, 11, 12] 2 2 0 0 =
      .ok (List.replicate 24 0) :=
  blit_outside (List.replicate 24 0) 4 2 4 0 [1, 2, 3, 4, 5, 6, 7, 8, 9, 10, 11, 12] 2 2 0 0
    (by decide) (by decide) (by intro wx wy h1 h2 h3 h4; omega)

/-! ## The scroll compositor -/

/-- With an empty buffer the layout loop does not run. -/
theorem layout_empty (w h work_y use_w cur_x_pos : Int) (fuel : Nat) (x : Int) (nr : Nat)
    (first : Bool) (in_out : List Byte) :
    layout [] w h work_y use_w cur_x_pos fuel x nr first in_out = .ok (in_out, []) := by
  cases fuel <;> simp [layout]

/-- One blit of the layout loop succeeds on well formed buffers. -/
theorem layout_blit_ok (in_out : List Byte) (w h x y : Int) (e : scroll_entry_t) (off : Int)
    (he : entry_ok e) (hoff : 0 ≤ off) (hframe : (in_out.length : Int) = w * h * 3) :
    ∃ out1, blit in_out w h x y (e.bitmap.getD []) e.w e.h off 0 = .ok out1 ∧
      (out1.length : Int) = w * h * 3 := by
  obtain ⟨out1, h1, h2, _⟩ := blit_spec in_out w h x y (e.bitmap.getD []) e.w e.h off 0 hframe
    he.2.2 hoff (le_refl 0)
  exact ⟨out1, h1, by rw [h2]; exact hframe⟩

/-- After its first iteration the layout loop ends: every pass over the
buffer moves `x` right by at least the width of the head entry. The number
of iterations is bounded by the distance to `use_w` times the buffer size. -/
theorem layout_rest (buffer : List scroll_entry_t) (w h work_y use_w cur_x_pos : Int)
    (e0 : scroll_entry_t) (rest : List scroll_entry_t) (hb : buffer = e0 :: rest)
    (hW : 1 ≤ e0.w) (hok : ∀ e ∈ buffer, entry_ok e) (fuel : Nat) :
    ∀ (x : Int) (nr : Nat) (in_out : List Byte), nr < buffer.length →
      (use_w - x).toNat * buffer.length + (if nr = 0 then 0 else buffer.length - nr) < fuel →
      (in_out.length : Int) = w * h * 3 →
      ∃ out placed, layout buffer w h work_y use_w cur_x_pos fuel x nr false in_out =
        .ok (out, placed) ∧ (out.length : Int) = w * h * 3 := by
  induction fuel with
  | zero => intro x nr in_out _ hm _; omega
  | succ fuel ih =>
    intro x nr in_out hnr hm hframe
    by_cases hc : x < use_w ∧ buffer ≠ []
    · have hget : buffer[nr]? = some buffer[nr] := List.getElem?_eq_getElem hnr
      have he : entry_ok buffer[nr] := hok _ (List.getElem_mem hnr)
      obtain ⟨out1, hb1, hl1⟩ := layout_blit_ok in_out w h (x - 0) work_y buffer[nr] 0 he
        (le_refl 0) hframe
      have hlen : 1 ≤ buffer.length := by omega
      have hdec : (use_w - (x + (buffer[nr].w - 0))).toNat * buffer.length +
          (if (if nr + 1 ≥ buffer.length then 0 else nr + 1) = 0 then 0
            else buffer.length - (if nr + 1 ≥ buffer.length then 0 else nr + 1)) < fuel := by
        by_cases h0 : nr = 0
        · subst h0
          have hw0 : buffer[0].w = e0.w := by subst hb; rfl
          rw [if_pos rfl] at hm
          have hA : (use_w - (x + (buffer[0].w - 0))).toNat + 1 ≤ (use_w - x).toNat := by
            rw [hw0]; omega
          have hmul := Nat.mul_le_mul_right buffer.length hA
          rw [Nat.add_mul, Nat.one_mul] at hmul
          split_ifs <;> omega
        · rw [if_neg h0] at hm
          have hA : (use_w - (x + (buffer[nr].w - 0))).toNat ≤ (use_w - x).toNat := by
            have := he.1
            omega
          have hmul := Nat.mul_le_mul_right buffer.length hA
          split_ifs <;> omega
      have hnr1 : (if nr + 1 ≥ buffer.length then 0 else nr + 1) < buffer.length := by
        split_ifs <;> omega
      obtain ⟨out, placed, h2, hl2⟩ := ih (x + (buffer[nr].w - 0))
        (if nr + 1 ≥ buffer.length then 0 else nr + 1) out1 hnr1 hdec hl1
      refine ⟨out, { x := x - 0, bitmap_nr := nr, offset_x := 0 } :: placed, ?_, hl2⟩
      simp only [layout, if_pos hc, hget, Bool.false_eq_true, if_false, hb1, h2]
    · refine ⟨in_out, [], ?_, hframe⟩
      simp only [layout, if_neg hc]

/-- The layout loop ends, also when the scroll offset left by an earlier
frame exceeds the width of the head entry: enough fuel gives a frame of the
same size. -/
theorem layout_terminates (buffer : List scroll_entry_t) (w h work_y use_w cur_x_pos : Int)
    (e0 : scroll_entry_t) (rest : List scroll_entry_t) (hb : buffer = e0 :: rest)
    (hW : 1 ≤ e0.w) (hok : ∀ e ∈ buffer, entry_ok e) (hcur : 0 ≤ cur_x_pos) (x : Int)
    (in_out : List Byte) (hframe : (in_out.length : Int) = w * h * 3) :
    ∃ N : Nat, ∀ fuel : Nat, N ≤ fuel →
      ∃ out placed, layout buffer w h work_y use_w cur_x_pos fuel x 0 true in_out =
        .ok (out, placed) ∧ (out.length : Int) = w * h * 3 := by
  refine ⟨(use_w - (x + (e0.w - cur_x_pos))).toNat * buffer.length + buffer.length + 2, ?_⟩
  intro fuel hfuel
  obtain ⟨fuel1, rfl⟩ : ∃ k, fuel = k + 1 := ⟨fuel - 1, by omega⟩
  have hlen : 0 < buffer.length := by rw [hb]; simp
  by_cases hc : x < use_w ∧ buffer ≠ []
  · have hget : buffer[0]? = some e0 := by rw [hb]; simp
    have he : entry_ok e0 := hok e0 (by rw [hb]; exact List.mem_cons_self _ _)
    obtain ⟨out1, hb1, hl1⟩ := layout_blit_ok in_out w h (x - cur_x_pos) work_y e0 cur_x_pos he
      hcur hframe
    have hnr1 : (if 0 + 1 ≥ buffer.length then 0 else 0 + 1) < buffer.length := by
      split_ifs <;> omega
    have hm : (use_w - (x + (e0.w - cur_x_pos))).toNat * buffer.length +
        (if (if 0 + 1 ≥ buffer.length then 0 else 0 + 1) = 0 then 0
          else buffer.length - (if 0 + 1 ≥ buffer.length then 0 else 0 + 1)) < fuel1 := by
      split_ifs <;> omega
    obtain ⟨out, placed, h2, hl2⟩ := layout_rest buffer w h work_y use_w cur_x_pos e0 rest hb hW
      hok fuel1 (x + (e0.w - cur_x_pos)) (if 0 + 1 ≥ buffer.length then 0 else 0 + 1) out1
      hnr1 hm hl1
    refine ⟨out, { x := x - cur_x_pos, bitmap_nr := 0, offset_x := cur_x_pos } :: placed, ?_,
      hl2⟩
    simp only [layout, if_pos hc, hget, if_true, hb1, h2]
  · refine ⟨in_out, [], ?_, hframe⟩
    simp only [layout, if_neg hc]

/-- Line 183 on its stated domain: a scroll speed from 1 to 1000000 and a
head entry at least one pixel wide. -/
theorem scroll_pos_ok (ts : Nat) (scroll_speed head_w : Int) (hs1 : 1 ≤ scroll_speed)
    (hs2 : scroll_speed ≤ 1000000) (hW : 1 ≤ head_w) :
    scroll_pos ts scroll_speed head_w = .ok (((ts : Int) / (1000000 / scroll_speed)) % head_w) := by
  have hq : (1 : Int) ≤ 1000000 / scroll_speed := Int.le_ediv_of_mul_le (by omega) (by omega)
  have ht : Int.tdiv 1000000 scroll_speed = 1000000 / scroll_speed :=
    Int.tdiv_eq_ediv (by omega) (by omega)
  have hper : to_u64 (Int.tdiv 1000000 scroll_speed) = (1000000 / scroll_speed).toNat := by
    rw [ht]; unfold to_u64; rw [if_neg (by omega)]
  have hwu : to_u64 head_w = head_w.toNat := by
    unfold to_u64; rw [if_neg (by omega)]
  unfold scroll_pos
  rw [if_neg (by omega)]
  simp only [hper, hwu]
  rw [if_neg (by omega), if_neg (by omega), if_neg (by omega)]
  congr 1
  rw [Int.natCast_mod, Int.natCast_div, Int.toNat_of_nonneg (by omega),
    Int.toNat_of_nonneg (by omega)]

/-- A scrolling frame on a non-empty buffer whose head entry is at least one
pixel wide: with enough fuel the call returns, the buffer is the rasterized
one and the stored offset is the value of line 183. -/
theorem apply_scroll_frame (raster : Rasterizer) (f : filter_scroll) (ts : Nat) (w h : Int)
    (in_out : List Byte) (e0 : scroll_entry_t) (rest : List scroll_entry_t)
    (hbuf : rasterize_missing raster ts f.buffer = e0 :: rest) (hW : 1 ≤ e0.w)
    (hs1 : 1 ≤ f.scroll_speed) (hs2 : f.scroll_speed ≤ 1000000)
    (hok : ∀ e ∈ rasterize_missing raster ts f.buffer, entry_ok e) (hcur : 0 ≤ f.cur_x_pos)
    (hframe : (in_out.length : Int) = w * h * 3) :
    ∃ N : Nat, ∀ fuel : Nat, N ≤ fuel → ∃ out placed,
      apply_scroll raster fuel f ts w h in_out =
        .ok ({ f with buffer := e0 :: rest,
                      cur_x_pos := ((ts : Int) / (1000000 / f.scroll_speed)) % e0.w },
          out, placed) ∧
      (out.length : Int) = w * h * 3 := by
  obtain ⟨N, hN⟩ := layout_terminates (rasterize_missing raster ts f.buffer) w h
    (if f.y < 0 then f.y + h else f.y) (if f.text_w = -1 then w else f.text_w) f.cur_x_pos
    e0 rest hbuf hW hok hcur (if f.x < 0 then f.x + w else f.x) in_out hframe
  refine ⟨N, ?_⟩
  intro fuel hfuel
  obtain ⟨out, placed, hl, hlen⟩ := hN fuel hfuel
  refine ⟨out, placed, ?_, hlen⟩
  simp only [apply_scroll, hl]
  simp only [hbuf, scroll_pos_ok ts f.scroll_speed e0.w hs1 hs2 hW]

theorem evict_mem (n_lines : Int) (b : List scroll_entry_t) :
    ∀ b1, evict n_lines b = .ok b1 → ∀ e ∈ b1, e ∈ b := by
  induction b with
  | nil =>
    intro b1 h e he
    simp only [evict] at h
    split_ifs at h
    cases h
    exact he
  | cons a rest ih =>
    intro b1 h e he
    simp only [evict] at h
    split_ifs at h
    · exact List.mem_cons_of_mem _ (ih b1 h e he)
    · cases h
      exact he

theorem push_step_inv (f f1 : filter_scroll) (data : List Byte) (hf : state_ok f)
    (h : push_step f true data = .ok f1) :
    state_ok f1 ∧ f1.scroll_speed = f.scroll_speed ∧ f1.n_lines = f.n_lines := by
  unfold push_step at h
  by_cases hd : data.isEmpty = true
  · simp only [hd, Bool.not_true, Bool.and_false, Bool.false_eq_true, if_false] at h
    cases h
    exact ⟨hf, rfl, rfl⟩
  · have hd2 : data ≠ [] := by
      intro e; subst e; exact hd rfl
    simp only [Bool.not_eq_true] at hd
    simp only [hd, Bool.not_false, Bool.and_self, if_true] at h
    cases hev : evict f.n_lines f.buffer with
    | error err => simp [hev] at h
    | ok b1 =>
      simp only [hev] at h
      cases h
      refine ⟨⟨hf.1, ?_⟩, rfl, rfl⟩
      intro e he
      simp only [List.mem_append, List.mem_singleton] at he
      rcases he with he | he
      · exact hf.2 e (evict_mem _ _ b1 hev e he)
      · subst he
        exact ⟨hd2, Or.inl rfl⟩

/-- After the rasterization pass every entry has a bitmap, and under the
assumption on the rasterizer every entry is well formed and at least one
pixel wide. -/
theorem rasterize_missing_ok (raster : Rasterizer) (hr : raster_ok raster) (ts : Nat)
    (buffer : List scroll_entry_t)
    (hb : ∀ e ∈ buffer, e.text ≠ [] ∧ (e.bitmap = none ∨ (1 ≤ e.w ∧ entry_ok e))) :
    ∀ e ∈ rasterize_missing raster ts buffer,
      e.text ≠ [] ∧ e.bitmap ≠ none ∧ 1 ≤ e.w ∧ entry_ok e := by
  intro e he
  simp only [rasterize_missing, List.mem_map] at he
  obtain ⟨a, ha, hae⟩ := he
  obtain ⟨hat, hab⟩ := hb a ha
  cases hbm : a.bitmap with
  | some bits =>
    simp only [hbm] at hae
    subst hae
    rcases hab with hab | hab
    · rw [hbm] at hab; cases hab
    · exact ⟨hat, by rw [hbm]; simp, hab.1, hab.2⟩
  | none =>
    simp only [hbm] at hae
    subst hae
    obtain ⟨r1, r2, r3⟩ := hr a.text ts hat
    refine ⟨hat, by simp, r1, ?_, r2, ?_⟩
    · show 0 ≤ (raster a.text ts).1
      omega
    · exact r3

theorem scroll_pos_nonneg (ts : Nat) (scroll_speed head_w p : Int) (hw : 0 ≤ head_w)
    (h : scroll_pos ts scroll_speed head_w = .ok p) : 0 ≤ p := by
  simp only [scroll_pos] at h
  split_ifs at h
  · omega
  · simp only [Except.ok.injEq] at h
    rw [← h]
    exact Int.natCast_nonneg _

theorem apply_scroll_inv (raster : Rasterizer) (hr : raster_ok raster) (fuel : Nat)
    (f : filter_scroll) (ts : Nat) (w h : Int) (in_out : List Byte)
    (r : filter_scroll × List Byte × List Placement) (hf : state_ok f)
    (hap : apply_scroll raster fuel f ts w h in_out = .ok r) :
    state_ok r.1 ∧ r.1.scroll_speed = f.scroll_speed ∧ r.1.n_lines = f.n_lines := by
  have hall := rasterize_missing_ok raster hr ts f.buffer hf.2
  have hent : ∀ e ∈ rasterize_missing raster ts f.buffer,
      e.text ≠ [] ∧ (e.bitmap = none ∨ (1 ≤ e.w ∧ entry_ok e)) :=
    fun e he => ⟨(hall e he).1, Or.inr (hall e he).2.2⟩
  simp only [apply_scroll] at hap
  cases hl : layout (rasterize_missing raster ts f.buffer) w h (if f.y < 0 then f.y + h else f.y)
      (if f.text_w = -1 then w else f.text_w) f.cur_x_pos fuel (if f.x < 0 then f.x + w else f.x)
      0 true in_out with
  | error err => simp [hl] at hap
  | ok res =>
    obtain ⟨out, placed⟩ := res
    simp only [hl] at hap
    cases hbuf : rasterize_missing raster ts f.buffer with
    | nil =>
      simp only [hbuf] at hap
      cases hap
      refine ⟨⟨hf.1, ?_⟩, rfl, rfl⟩
      intro e he
      simp at he
    | cons e0 rest =>
      simp only [hbuf] at hap
      cases hp : scroll_pos ts f.scroll_speed e0.w with
      | error err => simp [hp] at hap
      | ok p =>
        simp only [hp] at hap
        cases hap
        have hw0 : 0 ≤ e0.w := by
          have := (hall e0 (by rw [hbuf]; exact List.mem_cons_self _ _)).2.2.1
          omega
        refine ⟨⟨scroll_pos_nonneg _ _ _ _ hw0 hp, ?_⟩, rfl, rfl⟩
        intro e he
        exact hent e (by rw [hbuf]; exact he)

/-- Every state reached by pushes and scrolling frames satisfies `state_ok`
and keeps the configuration. -/
theorem run_inv (raster : Rasterizer) (hr : raster_ok raster) (steps : List Step) :
    ∀ f f1 : filter_scroll, state_ok f → run raster f steps = .ok f1 →
      state_ok f1 ∧ f1.scroll_speed = f.scroll_speed ∧ f1.n_lines = f.n_lines := by
  induction steps with
  | nil =>
    intro f f1 hf h
    simp only [run] at h
    cases h
    exact ⟨hf, rfl, rfl⟩
  | cons s rest ih =>
    intro f f1 hf h
    simp only [run] at h
    cases hs : step raster f s with
    | error err => simp [hs] at h
    | ok f2 =>
      simp only [hs] at h
      have h2 : state_ok f2 ∧ f2.scroll_speed = f.scroll_speed ∧ f2.n_lines = f.n_lines := by
        cases s with
        | push data => exact push_step_inv f f2 data hf hs
        | frame ts w hh in_out fuel =>
          simp only [step] at hs
          cases ha : apply_scroll raster fuel f ts w hh in_out with
          | error err => simp [ha] at hs
          | ok r =>
            simp only [ha] at hs
            cases hs
            exact apply_scroll_inv raster hr fuel f ts w hh in_out r hf ha
      obtain ⟨h3, h4, h5⟩ := ih f2 f1 h2.1 h
      exact ⟨h3, by rw [h4, h2.2.1], by rw [h5, h2.2.2]⟩

theorem construct_ok (x y text_w n_lines scroll_speed : Int) :
    state_ok (construct x y text_w n_lines scroll_speed) := by
  refine ⟨le_refl 0, ?_⟩
  intro e he
  simp [construct] at he

theorem demo_raster_ok : raster_ok demo_raster := by
  intro text ts hne
  have hl : 0 < text.length := List.length_pos.mpr hne
  simp only [demo_raster, List.length_replicate]
  refine ⟨by omega, by omega, ?_⟩
  push_cast
  ring

/-- A push that evicts nothing appends the new entry and keeps the rest. -/
theorem push_step_no_evict (f : filter_scroll) (data : List Byte) (hd : data ≠ [])
    (hlen : (f.buffer.length : Int) < f.n_lines) :
    push_step f true data =
      .ok { f with buffer := f.buffer ++ [{ text := data, bitmap := none, w := 0, h := 0 }] } := by
  rw [push_step_ok f data (by omega) hd]
  have h0 : f.buffer.length - (f.n_lines.toNat - 1) = 0 := by omega
  simp only [lastN, h0, List.drop_zero]

/-! ## Claims C8, C9 and C10: the scroll offset -/

/-- C8 as stated fails. After the first push the head entry is not yet
rasterized, its width is 0 and the offset 0 is not below it. With capacity 2,
the pushes "AAAA" and "B", a frame at time 3 (offset 3 of the head width 4)
and the push "C", which evicts the head: the head is then the rasterized
entry "B" of width 1 while the stored offset is still 3, and the next frame
clips its first entry with offset 3. -/
theorem offset_outside_head :
    run demo_raster (construct 0 0 (-1) 2 1000000) [.push (str "A")] =
      .ok { construct 0 0 (-1) 2 1000000 with
            buffer := [{ text := str "A", bitmap := none, w := 0, h := 0 }] } ∧
    ¬ offset_in_head { construct 0 0 (-1) 2 1000000 with
        buffer := [{ text := str "A", bitmap := none, w := 0, h := 0 }] } ∧
    run demo_raster (construct 0 0 (-1) 2 1000000)
        [.push (str "AAAA"), .push (str "B"), .frame 3 8 1 (List.replicate 24 0) 20,
          .push (str "C")] =
      .ok { construct 0 0 (-1) 2 1000000 with
            buffer := [{ text := str "B", bitmap := some [7, 7, 7], w := 1, h := 1 },
                       { text := str "C", bitmap := none, w := 0, h := 0 }],
            cur_x_pos := 3 } ∧
    ¬ offset_in_head { construct 0 0 (-1) 2 1000000 with
        buffer := [{ text := str "B", bitmap := some [7, 7, 7], w := 1, h := 1 },
                   { text := str "C", bitmap := none, w := 0, h := 0 }],
        cur_x_pos := 3 } ∧
    (apply_scroll demo_raster 20
        { construct 0 0 (-1) 2 1000000 with
          buffer := [{ text := str "B", bitmap := some [7, 7, 7], w := 1, h := 1 },
                     { text := str "C", bitmap := none, w := 0, h := 0 }],
          cur_x_pos := 3 } 5 8 1 (List.replicate 24 0)).map (fun r => r.2.2.head?) =
      .ok (some { x := -3, bitmap_nr := 0, offset_x := 3 }) := by
  refine ⟨by rfl, by decide, by rfl, by decide, by rfl⟩

/-- Pushes that evict nothing append their entries and keep the rest. -/
theorem push_lines_no_evict (lines : List (List Byte)) :
    ∀ f : filter_scroll, (∀ t ∈ lines, t ≠ []) →
      (f.buffer.length : Int) + (lines.length : Int) ≤ f.n_lines →
      push_lines f lines = .ok { f with buffer := f.buffer ++ lines.map new_entry } := by
  induction lines with
  | nil =>
    intro f _ _
    simp [push_lines]
  | cons t rest ih =>
    intro f hne hlen
    simp only [List.length_cons] at hlen
    push_cast at hlen
    have hstep := push_step_no_evict f t (hne t (List.mem_cons_self _ _)) (by omega)
    have hrec := ih
      { f with buffer := f.buffer ++ [{ text := t, bitmap := none, w := 0, h := 0 }] }
      (fun u hu => hne u (List.mem_cons_of_mem _ hu))
      (by simp only [List.length_append, List.length_singleton]; push_cast; omega)
    simp only [push_lines, hstep, hrec]
    simp [new_entry]

/-- C8, amended: in every state reached from construction by pushes and
scrolling frames (scroll speed from 1 to 1000000, a rasterizer that gives
every non-empty text a well formed bitmap at least one pixel wide) the
stored offset is not negative; a scrolling frame made in such a state while
the buffer is not empty returns, and right after it the stored offset lies
in `[0, width of the head entry)`; every sequence of later pushes that evict
nothing keeps the head entry and the offset, hence the bound, and the next
frame finds that same head entry, so it clips its first entry with an offset
inside the entry's width. -/
theorem offset_in_head_after_frame (raster : Rasterizer) (hr : raster_ok raster)
    (x y text_w n_lines scroll_speed : Int) (hs1 : 1 ≤ scroll_speed)
    (hs2 : scroll_speed ≤ 1000000) (steps : List Step) (f : filter_scroll)
    (hrun : run raster (construct x y text_w n_lines scroll_speed) steps = .ok f) :
    0 ≤ f.cur_x_pos ∧
    ∀ (ts : Nat) (w h : Int) (in_out : List Byte), f.buffer ≠ [] →
      (in_out.length : Int) = w * h * 3 →
      ∃ N : Nat, ∀ fuel : Nat, N ≤ fuel → ∃ f1 out placed e0 rest,
        apply_scroll raster fuel f ts w h in_out = .ok (f1, out, placed) ∧
        f1.buffer = e0 :: rest ∧ 0 ≤ f1.cur_x_pos ∧ f1.cur_x_pos < e0.w ∧ offset_in_head f1 ∧
        ∀ lines : List (List Byte), (∀ t ∈ lines, t ≠ []) →
          (f1.buffer.length : Int) + (lines.length : Int) ≤ f1.n_lines →
          ∃ f2 rest2, push_lines f1 lines = .ok f2 ∧ f2.buffer = e0 :: rest2 ∧
            f2.cur_x_pos = f1.cur_x_pos ∧ offset_in_head f2 ∧
            ∀ ts2 : Nat, ∃ rest3, rasterize_missing raster ts2 f2.buffer = e0 :: rest3 := by
  obtain ⟨hinv, hsp, _⟩ := run_inv raster hr steps _ f
    (construct_ok x y text_w n_lines scroll_speed) hrun
  refine ⟨hinv.1, ?_⟩
  intro ts w h in_out hne hframe
  have hsp2 : f.scroll_speed = scroll_speed := hsp
  have hall := rasterize_missing_ok raster hr ts f.buffer hinv.2
  cases hbuf : rasterize_missing raster ts f.buffer with
  | nil =>
    exfalso
    have hl := congrArg List.length hbuf
    simp only [rasterize_missing, List.length_map, List.length_nil] at hl
    exact hne (List.length_eq_zero.mp hl)
  | cons e0 rest =>
    have he0 := hall e0 (by rw [hbuf]; exact List.mem_cons_self _ _)
    have hW : 1 ≤ e0.w := he0.2.2.1
    obtain ⟨N, hN⟩ := apply_scroll_frame raster f ts w h in_out e0 rest hbuf hW
      (by rw [hsp2]; exact hs1) (by rw [hsp2]; exact hs2)
      (fun e he => (hall e he).2.2.2) hinv.1 hframe
    refine ⟨N, ?_⟩
    intro fuel hfuel
    obtain ⟨out, placed, hap, _⟩ := hN fuel hfuel
    have h0 : 0 ≤ ((ts : Int) / (1000000 / f.scroll_speed)) % e0.w :=
      Int.emod_nonneg _ (by omega)
    have h1 : ((ts : Int) / (1000000 / f.scroll_speed)) % e0.w < e0.w :=
      Int.emod_lt_of_pos _ (by omega)
    refine ⟨_, out, placed, e0, rest, hap, rfl, h0, h1, ?_, ?_⟩
    · simp only [offset_in_head]
      exact ⟨h0, h1⟩
    · intro lines hd hlen
      refine ⟨_, rest ++ lines.map new_entry,
        push_lines_no_evict lines _ hd hlen, ?_, rfl, ?_, ?_⟩
      · simp only [List.cons_append]
      · simp only [offset_in_head, List.cons_append]
        exact ⟨h0, h1⟩
      · intro ts2
        obtain ⟨bits, hbits⟩ : ∃ bits, e0.bitmap = some bits := by
          cases hb : e0.bitmap with
          | none => exact absurd hb he0.2.1
          | some bits => exact ⟨bits, rfl⟩
        refine ⟨rasterize_missing raster ts2 (rest ++ lines.map new_entry), ?_⟩
        simp only [List.cons_append, rasterize_missing, List.map_cons, hbits]

/-- C8, amended, at the state reached by the pushes "AAAA" and "B" with
capacity 3, and a frame of 8 by 1 pixels at time 3; the push of "C" that
follows evicts nothing and the offset 3 stays below the head width 4. -/
theorem offset_in_head_after_frame_witness :
    (0 ≤ demo_below_capacity.cur_x_pos ∧
    ∀ (ts : Nat) (w h : Int) (in_out : List Byte), demo_below_capacity.buffer ≠ [] →
      (in_out.length : Int) = w * h * 3 →
      ∃ N : Nat, ∀ fuel : Nat, N ≤ fuel → ∃ f1 out placed e0 rest,
        apply_scroll demo_raster fuel demo_below_capacity ts w h in_out =
          .ok (f1, out, placed) ∧
        f1.buffer = e0 :: rest ∧ 0 ≤ f1.cur_x_pos ∧ f1.cur_x_pos < e0.w ∧ offset_in_head f1 ∧
        ∀ lines : List (List Byte), (∀ t ∈ lines, t ≠ []) →
          (f1.buffer.length : Int) + (lines.length : Int) ≤ f1.n_lines →
          ∃ f2 rest2, push_lines f1 lines = .ok f2 ∧ f2.buffer = e0 :: rest2 ∧
            f2.cur_x_pos = f1.cur_x_pos ∧ offset_in_head f2 ∧
            ∀ ts2 : Nat, ∃ rest3,
              rasterize_missing demo_raster ts2 f2.buffer = e0 :: rest3) ∧
    run demo_raster (construct 0 0 (-1) 3 1000000)
        [.push (str "AAAA"), .push (str "B"), .frame 3 8 1 (List.replicate 24 0) 20,
          .push (str "C")] =
      .ok { construct 0 0 (-1) 3 1000000 with
            buffer := [{ text := str "AAAA", bitmap := some (List.replicate 12 7), w := 4, h := 1 },
                       { text := str "B", bitmap := some [7, 7, 7], w := 1, h := 1 },
                       { text := str "C", bitmap := none, w := 0, h := 0 }],
            cur_x_pos := 3 } ∧
    offset_in_head { construct 0 0 (-1) 3 1000000 with
        buffer := [{ text := str "AAAA", bitmap := some (List.replicate 12 7), w := 4, h := 1 },
                   { text := str "B", bitmap := some [7, 7, 7], w := 1, h := 1 },
                   { text := str "C", bitmap := none, w := 0, h := 0 }],
        cur_x_pos := 3 } :=
  ⟨offset_in_head_after_frame demo_raster demo_raster_ok 0 0 (-1) 3 1000000 (by decide)
    (by decide) [.push (str "AAAA"), .push (str "B")] demo_below_capacity (by rfl),
    by rfl, by decide⟩

/-- C9: a scrolling frame at time `ts` on a non-empty buffer whose head entry
(after the rasterization pass of the call) has width `W ≥ 1`, with a scroll
speed from 1 to 1000000, well formed entries and frame and an old offset
that is not negative: the call returns and the offset it stores is exactly
`(ts / (1000000 / scroll_speed)) % W` in integer division, which lies in
`[0, W)`. -/
theorem apply_scroll_offset (raster : Rasterizer) (f : filter_scroll) (ts : Nat) (w h : Int)
    (in_out : List Byte) (e0 : scroll_entry_t) (rest : List scroll_entry_t)
    (hbuf : rasterize_missing raster ts f.buffer = e0 :: rest) (hW : 1 ≤ e0.w)
    (hs1 : 1 ≤ f.scroll_speed) (hs2 : f.scroll_speed ≤ 1000000)
    (hok : ∀ e ∈ rasterize_missing raster ts f.buffer, entry_ok e) (hcur : 0 ≤ f.cur_x_pos)
    (hframe : (in_out.length : Int) = w * h * 3) :
    ∃ N : Nat, ∀ fuel : Nat, N ≤ fuel → ∃ f1 out placed,
      apply_scroll raster fuel f ts w h in_out = .ok (f1, out, placed) ∧
      f1.buffer = e0 :: rest ∧
      f1.cur_x_pos = ((ts : Int) / (1000000 / f.scroll_speed)) % e0.w ∧
      0 ≤ f1.cur_x_pos ∧ f1.cur_x_pos < e0.w := by
  obtain ⟨N, hN⟩ := apply_scroll_frame raster f ts w h in_out e0 rest hbuf hW hs1 hs2 hok hcur
    hframe
  refine ⟨N, ?_⟩
  intro fuel hfuel
  obtain ⟨out, placed, hap, _⟩ := hN fuel hfuel
  exact ⟨_, out, placed, hap, rfl, rfl, Int.emod_nonneg _ (by omega),
    Int.emod_lt_of_pos _ (by omega)⟩

/-- C9 at a buffer holding the unrasterized line "AAAA" (width 4 once
rasterized), scroll speed 1000000, an old offset 9 and a frame of 8 by 1
pixels at time 7. -/
theorem apply_scroll_offset_witness :
    ∃ N : Nat, ∀ fuel : Nat, N ≤ fuel → ∃ f1 out placed,
      apply_scroll demo_raster fuel
        { construct 0 0 (-1) 2 1000000 with
          buffer := [{ text := str "AAAA", bitmap := none, w := 0, h := 0 }], cur_x_pos := 9 }
        7 8 1 (List.replicate 24 0) = .ok (f1, out, placed) ∧
      f1.buffer = { text := str "AAAA", bitmap := some (List.replicate 12 7), w := 4, h := 1 }
        :: [] ∧
      f1.cur_x_pos = ((7 : Nat) : Int) / (1000000 / 1000000) % 4 ∧
      0 ≤ f1.cur_x_pos ∧ f1.cur_x_pos < 4 :=
  apply_scroll_offset demo_raster
    { construct 0 0 (-1) 2 1000000 with
      buffer := [{ text := str "AAAA", bitmap := none, w := 0, h := 0 }], cur_x_pos := 9 }
    7 8 1 (List.replicate 24 0)
    { text := str "AAAA", bitmap := some (List.replicate 12 7), w := 4, h := 1 } []
    (by rfl) (by decide) (by decide) (by decide) (by decide) (by decide) (by decide)

/-- C10: a scrolling frame made while the buffer is empty returns for every
fuel, makes no blit (the list of blit calls is empty), and leaves the frame
and the whole filter state, the offset `cur_x_pos` included, as they were. -/
theorem apply_scroll_empty (raster : Rasterizer) (fuel : Nat) (f : filter_scroll) (ts : Nat)
    (w h : Int) (in_out : List Byte) (hempty : f.buffer = []) :
    apply_scroll raster fuel f ts w h in_out = .ok (f, in_out, []) := by
  have hr : rasterize_missing raster ts f.buffer = [] := by rw [hempty]; rfl
  have hf : ({ f with buffer := [] } : filter_scroll) = f := by
    cases f
    simp only at hempty
    subst hempty
    rfl
  simp only [apply_scroll, hr, layout_empty, hf]

/-- C10 at the freshly constructed filter with old offset 5 and a frame of 2
by 1 pixels. -/
theorem apply_scroll_empty_witness :
    apply_scroll demo_raster 0 { construct 0 0 (-1) 2 1000000 with cur_x_pos := 5 } 9 2 1
        [1, 2, 3, 4, 5, 6] =
      .ok ({ construct 0 0 (-1) 2 1000000 with cur_x_pos := 5 }, [1, 2, 3, 4, 5, 6], []) :=
  apply_scroll_empty demo_raster 0 { construct 0 0 (-1) 2 1000000 with cur_x_pos := 5 } 9 2 1
    [1, 2, 3, 4, 5, 6] rfl

/-! ## Claims C11, C13, C15, C16 and C17 -/

/-- With a head entry of width zero line 183 always faults: the divisor of
the modulo is zero (or an earlier division already faulted). -/
theorem scroll_pos_zero_width (ts : Nat) (scroll_speed : Int) :
    scroll_pos ts scroll_speed 0 = .error .div_by_zero := by
  simp only [scroll_pos]
  split_ifs <;> first | rfl | (exfalso; simp [to_u64] at *)

/-- A bitmap of width zero is blitted without any access: the frame is
returned as it is. -/
theorem blit_zero_width (in_out : List Byte) (w h x y : Int) (inp : List Byte)
    (in_w in_h off_x off_y : Int) (hz : in_w = 0) (hox : 0 ≤ off_x) :
    blit in_out w h x y inp in_w in_h off_x off_y = .ok in_out := by
  unfold blit
  apply blit_rows_skip
  intro r k _ _ h3 h4
  omega

/-- While every entry has width zero the layout loop never moves `x`: from a
position left of `use_w` it uses up every fuel. -/
theorem layout_zero_width (buffer : List scroll_entry_t) (w h work_y use_w cur_x_pos : Int)
    (hne : buffer ≠ []) (hz : ∀ e ∈ buffer, e.w = 0) (hcur : 0 ≤ cur_x_pos) (fuel : Nat) :
    ∀ (x : Int) (nr : Nat) (first : Bool) (in_out : List Byte), x < use_w →
      nr < buffer.length →
      layout buffer w h work_y use_w cur_x_pos fuel x nr first in_out =
        .error .out_of_fuel := by
  induction fuel with
  | zero =>
    intro x nr first in_out hx _
    simp only [layout, if_pos (And.intro hx hne)]
  | succ fuel ih =>
    intro x nr first in_out hx hnr
    have hget : buffer[nr]? = some buffer[nr] := List.getElem?_eq_getElem hnr
    have hw0 : buffer[nr].w = 0 := hz _ (List.getElem_mem hnr)
    have hoff : 0 ≤ (if first = true then cur_x_pos else 0) := by
      split_ifs <;> omega
    have hlen : 0 < buffer.length := by omega
    have hnr1 : (if nr + 1 ≥ buffer.length then 0 else nr + 1) < buffer.length := by
      split_ifs <;> omega
    have hrec := ih (x + (buffer[nr].w - (if first = true then cur_x_pos else 0)))
      (if nr + 1 ≥ buffer.length then 0 else nr + 1) false in_out (by rw [hw0]; omega) hnr1
    have hbl := blit_zero_width in_out w h (x - (if first = true then cur_x_pos else 0)) work_y
      (buffer[nr].bitmap.getD []) buffer[nr].w buffer[nr].h
      (if first = true then cur_x_pos else 0) 0 hw0 hoff
    simp only [layout, if_pos (And.intro hx hne), hget, hbl, hrec]

/-- A scrolling frame that returns leaves the rasterized buffer in the
state. -/
theorem apply_scroll_buffer (raster : Rasterizer) (fuel : Nat) (f : filter_scroll) (ts : Nat)
    (w h : Int) (in_out : List Byte) (r : filter_scroll × List Byte × List Placement)
    (hap : apply_scroll raster fuel f ts w h in_out = .ok r) :
    r.1.buffer = rasterize_missing raster ts f.buffer := by
  simp only [apply_scroll] at hap
  cases hl : layout (rasterize_missing raster ts f.buffer) w h (if f.y < 0 then f.y + h else f.y)
      (if f.text_w = -1 then w else f.text_w) f.cur_x_pos fuel (if f.x < 0 then f.x + w else f.x)
      0 true in_out with
  | error err => simp [hl] at hap
  | ok res =>
    obtain ⟨out, placed⟩ := res
    simp only [hl] at hap
    cases hbuf : rasterize_missing raster ts f.buffer with
    | nil =>
      simp only [hbuf] at hap
      cases hap
      rfl
    | cons e0 rest =>
      simp only [hbuf] at hap
      cases hp : scroll_pos ts f.scroll_speed e0.w with
      | error err => simp [hp] at hap
      | ok p =>
        simp only [hp] at hap
        cases hap
        rfl

/-- C11 (the code faults): when the head entry has rasterized width 0 a
scrolling frame on a non-empty buffer never completes normally, whatever the
fuel: if the layout loop finishes, line 183 divides by zero; and when every
entry has width 0 and the ticker starts left of `use_w`, the layout loop
does not finish at all. -/
theorem apply_scroll_zero_width (raster : Rasterizer) (fuel : Nat) (f : filter_scroll) (ts : Nat)
    (w h : Int) (in_out : List Byte) (e0 : scroll_entry_t) (rest : List scroll_entry_t)
    (hbuf : rasterize_missing raster ts f.buffer = e0 :: rest) (hW : e0.w = 0)
    (hcur : 0 ≤ f.cur_x_pos) :
    (∀ r, apply_scroll raster fuel f ts w h in_out ≠ .ok r) ∧
    (∀ out placed,
      layout (rasterize_missing raster ts f.buffer) w h (if f.y < 0 then f.y + h else f.y)
        (if f.text_w = -1 then w else f.text_w) f.cur_x_pos fuel
        (if f.x < 0 then f.x + w else f.x) 0 true in_out = .ok (out, placed) →
      apply_scroll raster fuel f ts w h in_out = .error .div_by_zero) ∧
    ((∀ e ∈ rasterize_missing raster ts f.buffer, e.w = 0) →
      (if f.x < 0 then f.x + w else f.x) < (if f.text_w = -1 then w else f.text_w) →
      apply_scroll raster fuel f ts w h in_out = .error .out_of_fuel) := by
  have hdiv : ∀ out placed,
      layout (rasterize_missing raster ts f.buffer) w h (if f.y < 0 then f.y + h else f.y)
        (if f.text_w = -1 then w else f.text_w) f.cur_x_pos fuel
        (if f.x < 0 then f.x + w else f.x) 0 true in_out = .ok (out, placed) →
      apply_scroll raster fuel f ts w h in_out = .error .div_by_zero := by
    intro out placed hl
    simp only [apply_scroll, hl]
    simp only [hbuf, hW, scroll_pos_zero_width]
  refine ⟨?_, hdiv, ?_⟩
  · intro r hr
    cases hl : layout (rasterize_missing raster ts f.buffer) w h
        (if f.y < 0 then f.y + h else f.y) (if f.text_w = -1 then w else f.text_w) f.cur_x_pos
        fuel (if f.x < 0 then f.x + w else f.x) 0 true in_out with
    | error err =>
      simp only [apply_scroll, hl] at hr
      cases hr
    | ok res =>
      rw [hdiv res.1 res.2 hl] at hr
      cases hr
  · intro hz hx
    have hl := layout_zero_width (rasterize_missing raster ts f.buffer) w h
      (if f.y < 0 then f.y + h else f.y) (if f.text_w = -1 then w else f.text_w) f.cur_x_pos
      (by rw [hbuf]; simp) hz hcur fuel (if f.x < 0 then f.x + w else f.x) 0 true in_out hx
      (by rw [hbuf]; simp)
    simp only [apply_scroll, hl]

/-- C11 at the failing input: one buffered line " " that rasterizes to width
0, a frame of 8 by 1 pixels, 50 iterations granted to the layout loop. -/
theorem apply_scroll_zero_width_witness :
    (∀ r, apply_scroll zero_raster 50
        { construct 0 0 (-1) 2 1000000 with
          buffer := [{ text := str " ", bitmap := none, w := 0, h := 0 }] }
        0 8 1 (List.replicate 24 0) ≠ .ok r) ∧
    (∀ out placed,
      layout (rasterize_missing zero_raster 0
          [{ text := str " ", bitmap := none, w := 0, h := 0 }]) 8 1
        (if (0 : Int) < 0 then 0 + 1 else 0) (if (-1 : Int) = -1 then 8 else -1) 0 50
        (if (0 : Int) < 0 then 0 + 8 else 0) 0 true (List.replicate 24 0) = .ok (out, placed) →
      apply_scroll zero_raster 50
        { construct 0 0 (-1) 2 1000000 with
          buffer := [{ text := str " ", bitmap := none, w := 0, h := 0 }] }
        0 8 1 (List.replicate 24 0) = .error .div_by_zero) ∧
    ((∀ e ∈ rasterize_missing zero_raster 0
        [{ text := str " ", bitmap := none, w := 0, h := 0 }], e.w = 0) →
      (if (0 : Int) < 0 then 0 + 8 else 0) < (if (-1 : Int) = -1 then 8 else -1) →
      apply_scroll zero_raster 50
        { construct 0 0 (-1) 2 1000000 with
          buffer := [{ text := str " ", bitmap := none, w := 0, h := 0 }] }
        0 8 1 (List.replicate 24 0) = .error .out_of_fuel) :=
  apply_scroll_zero_width zero_raster 50
    { construct 0 0 (-1) 2 1000000 with
      buffer := [{ text := str " ", bitmap := none, w := 0, h := 0 }] }
    0 8 1 (List.replicate 24 0)
    { text := str " ", bitmap := some [], w := 0, h := 0 } [] (by rfl) (by rfl) (by decide)

/-- The two faults of a head entry of width 0, evaluated: with the ticker
at the right edge (column 8 of 8) the loop is skipped and line 183 divides by
zero; with the ticker at column 0 the loop uses up its 50 iterations. -/
theorem zero_width_faults :
    apply_scroll zero_raster 50
        { construct 8 0 (-1) 2 1000000 with
          buffer := [{ text := str " ", bitmap := none, w := 0, h := 0 }] }
        0 8 1 (List.replicate 24 0) = .error .div_by_zero ∧
    apply_scroll zero_raster 50
        { construct 0 0 (-1) 2 1000000 with
          buffer := [{ text := str " ", bitmap := none, w := 0, h := 0 }] }
        0 8 1 (List.replicate 24 0) = .error .out_of_fuel := by
  refine ⟨by rfl, by rfl⟩

/-- C13: for a destination of `w * h * 3` bytes, a source of
`in_w * in_h * 3` bytes and offsets that are not negative, `blit` succeeds and
its result is characterised pixel by pixel: the destination pixel `(X, Y)`
with `0 ≤ X < w`, `0 ≤ Y < h` holds the source pixel `(X - x, Y - y)` when
`off_x ≤ X - x < in_w` and `off_y ≤ Y - y < in_h`, and its old value
otherwise; so skipping rows and columns and ending the loop at the first row
at or below the bottom loses no pixel that lies inside the destination. -/
theorem blit_pixelwise (out : List Byte) (w h x y : Int) (inp : List Byte)
    (in_w in_h off_x off_y : Int) (hout : (out.length : Int) = w * h * 3)
    (hin : (inp.length : Int) = in_w * in_h * 3) (hox : 0 ≤ off_x) (hoy : 0 ≤ off_y) :
    ∃ out1, blit out w h x y inp in_w in_h off_x off_y = .ok out1 ∧
      out1.length = out.length ∧
      ∀ X Y c : Int, 0 ≤ X → X < w → 0 ≤ Y → Y < h → 0 ≤ c → c < 3 →
        (off_x ≤ X - x ∧ X - x < in_w ∧ off_y ≤ Y - y ∧ Y - y < in_h →
          ∃ b, load inp (pix in_w (X - x) (Y - y) c) = .ok b ∧
            load out1 (pix w X Y c) = .ok b) ∧
        (¬ (off_x ≤ X - x ∧ X - x < in_w ∧ off_y ≤ Y - y ∧ Y - y < in_h) →
          ∃ b, load out (pix w X Y c) = .ok b ∧ load out1 (pix w X Y c) = .ok b) := by
  obtain ⟨out1, h1, h2, h3⟩ := blit_spec out w h x y inp in_w in_h off_x off_y hout hin hox hoy
  refine ⟨out1, h1, h2, ?_⟩
  intro X Y c hX hXw hY hYh hc hc3
  constructor
  · intro hcond
    obtain ⟨b, hb⟩ := load_pix inp in_w in_h (X - x) (Y - y) c hin (by omega) (by omega)
      (by omega) (by omega) hc hc3
    exact ⟨b, hb, by rw [h3 X Y c hX hXw hY hYh hc hc3, if_pos hcond, hb]⟩
  · intro hcond
    obtain ⟨b, hb⟩ := load_pix out w h X Y c hout hX hXw hY hYh hc hc3
    exact ⟨b, hb, by rw [h3 X Y c hX hXw hY hYh hc hc3, if_neg hcond, hb]⟩

/-- C13 at a source of 2 by 2 pixels placed at column 3, row -1 of a
destination of 4 by 2 pixels, clipped at the top and at the right. -/
theorem blit_pixelwise_witness :
    ∃ out1, blit (List.replicate 24 0) 4 2 3 (-1) [1, 2, 3, 4, 5, 6, 7, 8, 9, 10, 11, 12]
        2 2 0 0 = .ok out1 ∧
      out1.length = (List.replicate 24 (0 : Byte)).length ∧
      ∀ X Y c : Int, 0 ≤ X → X < 4 → 0 ≤ Y → Y < 2 → 0 ≤ c → c < 3 →
        (0 ≤ X - 3 ∧ X - 3 < 2 ∧ 0 ≤ Y - (-1) ∧ Y - (-1) < 2 →
          ∃ b, load [1, 2, 3, 4, 5, 6, 7, 8, 9, 10, 11, 12] (pix 2 (X - 3) (Y - (-1)) c) = .ok b ∧
            load out1 (pix 4 X Y c) = .ok b) ∧
        (¬ (0 ≤ X - 3 ∧ X - 3 < 2 ∧ 0 ≤ Y - (-1) ∧ Y - (-1) < 2) →
          ∃ b, load (List.replicate 24 0) (pix 4 X Y c) = .ok b ∧
            load out1 (pix 4 X Y c) = .ok b) :=
  blit_pixelwise (List.replicate 24 0) 4 2 3 (-1) [1, 2, 3, 4, 5, 6, 7, 8, 9, 10, 11, 12] 2 2 0 0
    (by decide) (by decide) (by decide) (by decide)

/-- C15: when the channel is ready but `read` returns a result that is not
positive (an error, or 0 at the end of file), `poll_for_data` restarts the
source process (one more `restart_process` call), returns `(false, "")` and
leaves the accumulator as it was, whatever it holds. -/
theorem poll_for_data_read_failure (f : filter_scroll) :
    poll_for_data f .read_error = (restart_process f, false, []) ∧
    poll_for_data f (.data []) = (restart_process f, false, []) ∧
    (restart_process f).in_buffer = f.in_buffer ∧
    (restart_process f).restarts = f.restarts + 1 ∧
    (restart_process f).buffer = f.buffer := by
  refine ⟨rfl, ?_, rfl, rfl, rfl⟩
  simp [poll_for_data]

theorem rasterize_missing_entry (raster : Rasterizer) (ts : Nat) (buffer : List scroll_entry_t)
    (i : Nat) (h1 : i < buffer.length) (h2 : i < (rasterize_missing raster ts buffer).length) :
    (rasterize_missing raster ts buffer)[i].text = buffer[i].text ∧
      (rasterize_missing raster ts buffer)[i].bitmap ≠ none ∧
      (buffer[i].bitmap ≠ none → (rasterize_missing raster ts buffer)[i] = buffer[i]) := by
  simp only [rasterize_missing, List.getElem_map]
  cases hb : buffer[i].bitmap with
  | some bits => simp [hb]
  | none => simp

/-- A scrolling frame that returns leaves the same entries in the same order
(same length, same text at every index), every entry with a bitmap, and
every entry that had a bitmap before the call unchanged. -/
theorem apply_scroll_keeps_entries (raster : Rasterizer) (fuel : Nat) (f : filter_scroll)
    (ts : Nat) (w h : Int) (in_out : List Byte) (f1 : filter_scroll) (out : List Byte)
    (placed : List Placement)
    (hap : apply_scroll raster fuel f ts w h in_out = .ok (f1, out, placed)) :
    f1.buffer.length = f.buffer.length ∧
    ∀ (i : Nat) (h1 : i < f.buffer.length) (h2 : i < f1.buffer.length),
      (f1.buffer.get ⟨i, h2⟩).text = (f.buffer.get ⟨i, h1⟩).text ∧
      (f1.buffer.get ⟨i, h2⟩).bitmap ≠ none ∧
      ((f.buffer.get ⟨i, h1⟩).bitmap ≠ none →
        f1.buffer.get ⟨i, h2⟩ = f.buffer.get ⟨i, h1⟩) := by
  have hb : f1.buffer = rasterize_missing raster ts f.buffer :=
    apply_scroll_buffer raster fuel f ts w h in_out _ hap
  constructor
  · rw [hb]; simp [rasterize_missing]
  · intro i h1 h2
    simp only [List.get_eq_getElem]
    have h3 : i < (rasterize_missing raster ts f.buffer).length := by rw [← hb]; exact h2
    have key := rasterize_missing_entry raster ts f.buffer i h1 h3
    have e : f1.buffer[i] = (rasterize_missing raster ts f.buffer)[i] := by
      simp only [hb]
    rw [e]
    exact key

/-- A scrolling frame returns when the layout loop gets enough iterations:
on an empty buffer always, on a buffer whose head entry (after the
rasterization pass) is at least one pixel wide for a scroll speed from 1 to
1000000, well formed entries and frame and an old offset that is not
negative. -/
theorem apply_scroll_returns (raster : Rasterizer) (f : filter_scroll) (ts : Nat) (w h : Int)
    (in_out : List Byte)
    (hhead : ∀ e ∈ (rasterize_missing raster ts f.buffer).head?, 1 ≤ e.w)
    (hs1 : 1 ≤ f.scroll_speed) (hs2 : f.scroll_speed ≤ 1000000)
    (hok : ∀ e ∈ rasterize_missing raster ts f.buffer, entry_ok e) (hcur : 0 ≤ f.cur_x_pos)
    (hframe : (in_out.length : Int) = w * h * 3) :
    ∃ N : Nat, ∀ fuel : Nat, N ≤ fuel → ∃ f1 out placed,
      apply_scroll raster fuel f ts w h in_out = .ok (f1, out, placed) := by
  cases hbuf : rasterize_missing raster ts f.buffer with
  | nil =>
    refine ⟨0, ?_⟩
    intro fuel _
    refine ⟨{ f with buffer := [] }, in_out, [], ?_⟩
    simp only [apply_scroll, hbuf, layout_empty]
  | cons e0 rest =>
    have hW : 1 ≤ e0.w := hhead e0 (by rw [hbuf]; rfl)
    obtain ⟨N, hN⟩ := apply_scroll_frame raster f ts w h in_out e0 rest hbuf hW hs1 hs2 hok hcur
      hframe
    refine ⟨N, ?_⟩
    intro fuel hfuel
    obtain ⟨out, placed, hap, _⟩ := hN fuel hfuel
    exact ⟨_, out, placed, hap⟩

/-- C16: a scrolling frame on a buffer whose head entry, if there is one, is
at least one pixel wide after the rasterization pass (scroll speed from 1 to
1000000, well formed entries and frame, old offset not negative) returns,
and after the call the buffer holds the same entries in the same order (same
length, same text at every index), every entry has a bitmap, and an entry
that had a bitmap before the call is unchanged: bitmap, width and height are
not computed again. On the example state, at time 3 and a frame of 8 by 1
pixels, the entry "AB" keeps its own bitmap and the entry "C" gets one. -/
theorem apply_scroll_bitmaps (raster : Rasterizer) (f : filter_scroll) (ts : Nat) (w h : Int)
    (in_out : List Byte)
    (hhead : ∀ e ∈ (rasterize_missing raster ts f.buffer).head?, 1 ≤ e.w)
    (hs1 : 1 ≤ f.scroll_speed) (hs2 : f.scroll_speed ≤ 1000000)
    (hok : ∀ e ∈ rasterize_missing raster ts f.buffer, entry_ok e) (hcur : 0 ≤ f.cur_x_pos)
    (hframe : (in_out.length : Int) = w * h * 3) :
    (∃ N : Nat, ∀ fuel : Nat, N ≤ fuel → ∃ f1 out placed,
      apply_scroll raster fuel f ts w h in_out = .ok (f1, out, placed) ∧
      f1.buffer.length = f.buffer.length ∧
      ∀ (i : Nat) (h1 : i < f.buffer.length) (h2 : i < f1.buffer.length),
        (f1.buffer.get ⟨i, h2⟩).text = (f.buffer.get ⟨i, h1⟩).text ∧
        (f1.buffer.get ⟨i, h2⟩).bitmap ≠ none ∧
        ((f.buffer.get ⟨i, h1⟩).bitmap ≠ none →
          f1.buffer.get ⟨i, h2⟩ = f.buffer.get ⟨i, h1⟩)) ∧
    (apply_scroll demo_raster 20 demo_state 3 8 1 (List.replicate 24 0)).map (fun r => r.1) =
      .ok demo_state_after := by
  refine ⟨?_, by rfl⟩
  obtain ⟨N, hN⟩ := apply_scroll_returns raster f ts w h in_out hhead hs1 hs2 hok hcur hframe
  refine ⟨N, ?_⟩
  intro fuel hfuel
  obtain ⟨f1, out, placed, hap⟩ := hN fuel hfuel
  obtain ⟨k1, k2⟩ := apply_scroll_keeps_entries raster fuel f ts w h in_out f1 out placed hap
  exact ⟨f1, out, placed, hap, k1, k2⟩

/-- C16 at a frame of 8 by 1 pixels at time 3 on the example state: the
entry "AB" keeps its own bitmap, the entry "C" gets one. -/
theorem apply_scroll_bitmaps_witness :
    (∃ N : Nat, ∀ fuel : Nat, N ≤ fuel → ∃ f1 out placed,
      apply_scroll demo_raster fuel demo_state 3 8 1 (List.replicate 24 0) =
        .ok (f1, out, placed) ∧
      f1.buffer.length = demo_state.buffer.length ∧
      ∀ (i : Nat) (h1 : i < demo_state.buffer.length) (h2 : i < f1.buffer.length),
        (f1.buffer.get ⟨i, h2⟩).text = (demo_state.buffer.get ⟨i, h1⟩).text ∧
        (f1.buffer.get ⟨i, h2⟩).bitmap ≠ none ∧
        ((demo_state.buffer.get ⟨i, h1⟩).bitmap ≠ none →
          f1.buffer.get ⟨i, h2⟩ = demo_state.buffer.get ⟨i, h1⟩)) ∧
    (apply_scroll demo_raster 20 demo_state 3 8 1 (List.replicate 24 0)).map (fun r => r.1) =
      .ok demo_state_after :=
  apply_scroll_bitmaps demo_raster demo_state 3 8 1 (List.replicate 24 0) (by decide)
    (by decide) (by decide) (by decide) (by decide) (by decide)

/-- C17: for a destination of `w * h * 3` bytes, a source of
`in_w * in_h * 3` bytes, offsets that are not negative and any position
`(x, y)`, no access of `blit` is out of range: every store is checked against
`[0, w * h * 3)` and every load against `[0, in_w * in_h * 3)`, and the call
returns a result, never a fault. -/
theorem blit_in_bounds (out : List Byte) (w h x y : Int) (inp : List Byte)
    (in_w in_h off_x off_y : Int) (hout : (out.length : Int) = w * h * 3)
    (hin : (inp.length : Int) = in_w * in_h * 3) (hox : 0 ≤ off_x) (hoy : 0 ≤ off_y) :
    (∀ e, blit out w h x y inp in_w in_h off_x off_y ≠ .error e) ∧
    ∃ out1, blit out w h x y inp in_w in_h off_x off_y = .ok out1 ∧
      (out1.length : Int) = w * h * 3 := by
  obtain ⟨out1, h1, h2, _⟩ := blit_spec out w h x y inp in_w in_h off_x off_y hout hin hox hoy
  refine ⟨?_, out1, h1, by rw [h2]; exact hout⟩
  intro e he
  rw [h1] at he
  cases he

/-- C17 at a source of 3 by 2 pixels placed at column 1, row 1 of a
destination of 4 by 2 pixels, with clip offset 1: the source pixels (1, 0) and
(2, 0) are loaded and stored at the columns 2 and 3 of row 1; the second
source row falls below the destination. -/
theorem blit_in_bounds_witness :
    ((∀ e, blit (List.replicate 24 0) 4 2 1 1
        [1, 2, 3, 4, 5, 6, 7, 8, 9, 10, 11, 12, 13, 14, 15, 16, 17, 18] 3 2 1 0 ≠ .error e) ∧
      ∃ out1, blit (List.replicate 24 0) 4 2 1 1
          [1, 2, 3, 4, 5, 6, 7, 8, 9, 10, 11, 12, 13, 14, 15, 16, 17, 18] 3 2 1 0 = .ok out1 ∧
        (out1.length : Int) = 4 * 2 * 3) ∧
    blit (List.replicate 24 0) 4 2 1 1
        [1, 2, 3, 4, 5, 6, 7, 8, 9, 10, 11, 12, 13, 14, 15, 16, 17, 18] 3 2 1 0 =
      .ok [0, 0, 0, 0, 0, 0, 0, 0, 0, 0, 0, 0, 0, 0, 0, 0, 0, 0, 4, 5, 6, 7, 8, 9] :=
  ⟨blit_in_bounds (List.replicate 24 0) 4 2 1 1
      [1, 2, 3, 4, 5, 6, 7, 8, 9, 10, 11, 12, 13, 14, 15, 16, 17, 18] 3 2 1 0
      (by decide) (by decide) (by decide) (by decide), by rfl⟩

/-! ## Claim C18: the layout loop ends -/

theorem load_fault (m : List Byte) (i : Int) (e : Fault) (h : load m i = .error e) :
    e = .out_of_range := by
  unfold load at h
  split_ifs at h
  cases h
  rfl

theorem store_fault (m : List Byte) (i : Int) (v : Byte) (e : Fault)
    (h : store m i v = .error e) : e = .out_of_range := by
  unfold store at h
  split_ifs at h
  cases h
  rfl

theorem copy_pixel_fault (out inp : List Byte) (t s : Int) (e : Fault)
    (h : copy_pixel out inp t s = .error e) : e = .out_of_range := by
  unfold copy_pixel at h
  cases h0 : load inp (s + 0) with
  | error e0 =>
    rw [h0] at h
    cases h
    exact load_fault _ _ _ h0
  | ok b0 =>
    rw [h0] at h
    cases g0 : store out (t + 0) b0 with
    | error e0 =>
      simp only [g0] at h
      cases h
      exact store_fault _ _ _ _ g0
    | ok out0 =>
      simp only [g0] at h
      cases h1 : load inp (s + 1) with
      | error e1 =>
        simp only [h1] at h
        cases h
        exact load_fault _ _ _ h1
      | ok b1 =>
        simp only [h1] at h
        cases g1 : store out0 (t + 1) b1 with
        | error e1 =>
          simp only [g1] at h
          cases h
          exact store_fault _ _ _ _ g1
        | ok out1 =>
          simp only [g1] at h
          cases h2 : load inp (s + 2) with
          | error e2 =>
            simp only [h2] at h
            cases h
            exact load_fault _ _ _ h2
          | ok b2 =>
            simp only [h2] at h
            exact store_fault _ _ _ _ h

theorem blit_cols_fault (w x : Int) (inp : List Byte) (in_w wy out_offset : Int) (n : Nat) :
    ∀ (wx : Int) (out : List Byte) (e : Fault),
      blit_cols w x inp in_w wy out_offset n wx out = .error e → e = .out_of_range := by
  induction n with
  | zero =>
    intro wx out e h
    simp only [blit_cols] at h
    cases h
  | succ n ih =>
    intro wx out e h
    simp only [blit_cols] at h
    split_ifs at h
    · exact ih _ _ _ h
    · cases hc : copy_pixel out inp (out_offset + (wx + x) * 3) (wy * in_w * 3 + wx * 3) with
      | error e1 =>
        simp only [hc] at h
        cases h
        exact copy_pixel_fault _ _ _ _ _ hc
      | ok out1 =>
        simp only [hc] at h
        exact ih _ _ _ h

theorem blit_rows_fault (w h x y : Int) (inp : List Byte) (in_w off_x : Int) (n : Nat) :
    ∀ (wy : Int) (out : List Byte) (e : Fault),
      blit_rows w h x y inp in_w off_x n wy out = .error e → e = .out_of_range := by
  induction n with
  | zero =>
    intro wy out e hr
    simp only [blit_rows] at hr
    cases hr
  | succ n ih =>
    intro wy out e hr
    simp only [blit_rows] at hr
    split_ifs at hr
    · exact ih _ _ _ hr
    · cases hc : blit_cols w x inp in_w wy ((y + wy) * w * 3) (in_w - off_x).toNat off_x out with
      | error e1 =>
        simp only [hc] at hr
        cases hr
        exact blit_cols_fault _ _ _ _ _ _ _ _ _ _ hc
      | ok out1 =>
        simp only [hc] at hr
        exact ih _ _ _ hr

/-- The only fault of `blit` is an access out of range. -/
theorem blit_fault (out : List Byte) (w h x y : Int) (inp : List Byte)
    (in_w in_h off_x off_y : Int) (e : Fault)
    (hb : blit out w h x y inp in_w in_h off_x off_y = .error e) : e = .out_of_range :=
  blit_rows_fault w h x y inp in_w off_x _ _ _ _ hb

/-- After its first iteration the layout loop does not use up its fuel,
whatever the bitmaps and the frame hold, when the head entry is at least one
pixel wide and no width is negative. -/
theorem layout_rest_fuel (buffer : List scroll_entry_t) (w h work_y use_w cur_x_pos : Int)
    (e0 : scroll_entry_t) (rest : List scroll_entry_t) (hb : buffer = e0 :: rest)
    (hW : 1 ≤ e0.w) (hw : ∀ e ∈ buffer, 0 ≤ e.w) (fuel : Nat) :
    ∀ (x : Int) (nr : Nat) (in_out : List Byte), nr < buffer.length →
      (use_w - x).toNat * buffer.length + (if nr = 0 then 0 else buffer.length - nr) < fuel →
      layout buffer w h work_y use_w cur_x_pos fuel x nr false in_out ≠
        .error .out_of_fuel := by
  induction fuel with
  | zero => intro x nr in_out _ hm; omega
  | succ fuel ih =>
    intro x nr in_out hnr hm
    by_cases hc : x < use_w ∧ buffer ≠ []
    · have hget : buffer[nr]? = some buffer[nr] := List.getElem?_eq_getElem hnr
      have hwn : 0 ≤ buffer[nr].w := hw _ (List.getElem_mem hnr)
      have hlen : 1 ≤ buffer.length := by omega
      have hdec : (use_w - (x + (buffer[nr].w - 0))).toNat * buffer.length +
          (if (if nr + 1 ≥ buffer.length then 0 else nr + 1) = 0 then 0
            else buffer.length - (if nr + 1 ≥ buffer.length then 0 else nr + 1)) < fuel := by
        by_cases h0 : nr = 0
        · subst h0
          have hw0 : buffer[0].w = e0.w := by subst hb; rfl
          rw [if_pos rfl] at hm
          have hA : (use_w - (x + (buffer[0].w - 0))).toNat + 1 ≤ (use_w - x).toNat := by
            rw [hw0]; omega
          have hmul := Nat.mul_le_mul_right buffer.length hA
          rw [Nat.add_mul, Nat.one_mul] at hmul
          split_ifs <;> omega
        · rw [if_neg h0] at hm
          have hA : (use_w - (x + (buffer[nr].w - 0))).toNat ≤ (use_w - x).toNat := by
            omega
          have hmul := Nat.mul_le_mul_right buffer.length hA
          split_ifs <;> omega
      have hnr1 : (if nr + 1 ≥ buffer.length then 0 else nr + 1) < buffer.length := by
        split_ifs <;> omega
      simp only [layout, if_pos hc, hget, Bool.false_eq_true, if_false]
      cases hbl : blit in_out w h (x - 0) work_y (buffer[nr].bitmap.getD []) buffer[nr].w
          buffer[nr].h 0 0 with
      | error err =>
        have := blit_fault _ _ _ _ _ _ _ _ _ _ _ hbl
        subst this
        dsimp only
        intro hh
        cases hh
      | ok out1 =>
        have hrec := ih (x + (buffer[nr].w - 0)) (if nr + 1 ≥ buffer.length then 0 else nr + 1)
          out1 hnr1 hdec
        cases hl : layout buffer w h work_y use_w cur_x_pos fuel (x + (buffer[nr].w - 0))
            (if nr + 1 ≥ buffer.length then 0 else nr + 1) false out1 with
        | error err =>
          rw [hl] at hrec
          simp only [hl]
          exact hrec
        | ok res =>
          simp only [hl]
          intro hh
          cases hh
    · simp only [layout, if_neg hc]
      intro hh
      cases hh

/-- The layout loop makes at most one blit per iteration granted. -/
theorem layout_placed_le (buffer : List scroll_entry_t) (w h work_y use_w cur_x_pos : Int)
    (fuel : Nat) :
    ∀ (x : Int) (nr : Nat) (first : Bool) (in_out out : List Byte) (placed : List Placement),
      layout buffer w h work_y use_w cur_x_pos fuel x nr first in_out = .ok (out, placed) →
      placed.length ≤ fuel := by
  induction fuel with
  | zero =>
    intro x nr first in_out out placed hl
    by_cases hc : x < use_w ∧ buffer ≠ []
    · simp only [layout, if_pos hc] at hl
      cases hl
    · simp only [layout, if_neg hc, Except.ok.injEq, Prod.mk.injEq] at hl
      rw [← hl.2]
      simp
  | succ fuel ih =>
    intro x nr first in_out out placed hl
    by_cases hc : x < use_w ∧ buffer ≠ []
    · simp only [layout, if_pos hc] at hl
      cases hget : buffer[nr]? with
      | none => simp [hget] at hl
      | some e =>
        simp only [hget] at hl
        cases hbl : blit in_out w h (x - if first = true then cur_x_pos else 0) work_y
            (e.bitmap.getD []) e.w e.h (if first = true then cur_x_pos else 0) 0 with
        | error err => simp [hbl] at hl
        | ok out1 =>
          simp only [hbl] at hl
          cases hrec : layout buffer w h work_y use_w cur_x_pos fuel
              (x + (e.w - if first = true then cur_x_pos else 0))
              (if nr + 1 ≥ buffer.length then 0 else nr + 1) false out1 with
          | error err => simp [hrec] at hl
          | ok res =>
            obtain ⟨out2, placed2⟩ := res
            simp only [hrec, Except.ok.injEq, Prod.mk.injEq] at hl
            have := ih _ _ _ _ _ _ hrec
            rw [← hl.2]
            simp only [List.length_cons]
            omega
    · simp only [layout, if_neg hc, Except.ok.injEq, Prod.mk.injEq] at hl
      rw [← hl.2]
      simp

/-- C18: for a non-empty buffer in which every entry is at least one pixel
wide, every start position `work_x`, every ticker width `use_w` and every
old offset `cur_x_pos ≥ 0` (also one beyond the width of the head entry) the
layout loop ends within a bounded number of iterations: with that much fuel
it never reports that it ran out, and on well formed bitmaps and frame it
returns the frame and the finite list of its blits. -/
theorem layout_loop_ends (buffer : List scroll_entry_t) (w h work_y use_w cur_x_pos work_x : Int)
    (in_out : List Byte) (hne : buffer ≠ []) (hw : ∀ e ∈ buffer, 1 ≤ e.w)
    (hcur : 0 ≤ cur_x_pos) :
    ∃ N : Nat, ∀ fuel : Nat, N ≤ fuel →
      layout buffer w h work_y use_w cur_x_pos fuel work_x 0 true in_out ≠
        .error .out_of_fuel ∧
      ((∀ e ∈ buffer, entry_ok e) → (in_out.length : Int) = w * h * 3 →
        ∃ out placed, layout buffer w h work_y use_w cur_x_pos fuel work_x 0 true in_out =
          .ok (out, placed) ∧ placed.length ≤ fuel) := by
  obtain ⟨e0, rest, hb⟩ : ∃ e0 rest, buffer = e0 :: rest := by
    cases buffer with
    | nil => exact absurd rfl hne
    | cons a l => exact ⟨a, l, rfl⟩
  have hW : 1 ≤ e0.w := hw e0 (by rw [hb]; exact List.mem_cons_self _ _)
  have hw0 : ∀ e ∈ buffer, 0 ≤ e.w := fun e he => by have := hw e he; omega
  refine ⟨(use_w - (work_x + (e0.w - cur_x_pos))).toNat * buffer.length + buffer.length + 2, ?_⟩
  intro fuel hfuel
  constructor
  · obtain ⟨fuel1, rfl⟩ : ∃ k, fuel = k + 1 := ⟨fuel - 1, by omega⟩
    have hlen : 0 < buffer.length := by rw [hb]; simp
    by_cases hc : work_x < use_w ∧ buffer ≠ []
    · have hget : buffer[0]? = some e0 := by rw [hb]; simp
      have hnr1 : (if 0 + 1 ≥ buffer.length then 0 else 0 + 1) < buffer.length := by
        split_ifs <;> omega
      have hm : (use_w - (work_x + (e0.w - cur_x_pos))).toNat * buffer.length +
          (if (if 0 + 1 ≥ buffer.length then 0 else 0 + 1) = 0 then 0
            else buffer.length - (if 0 + 1 ≥ buffer.length then 0 else 0 + 1)) < fuel1 := by
        split_ifs <;> omega
      simp only [layout, if_pos hc, hget, if_true]
      cases hbl : blit in_out w h (work_x - cur_x_pos) work_y (e0.bitmap.getD []) e0.w e0.h
          cur_x_pos 0 with
      | error err =>
        have := blit_fault _ _ _ _ _ _ _ _ _ _ _ hbl
        subst this
        dsimp only
        intro hh
        cases hh
      | ok out1 =>
        have hrec := layout_rest_fuel buffer w h work_y use_w cur_x_pos e0 rest hb hW hw0 fuel1
          (work_x + (e0.w - cur_x_pos)) (if 0 + 1 ≥ buffer.length then 0 else 0 + 1) out1
          hnr1 hm
        cases hl : layout buffer w h work_y use_w cur_x_pos fuel1 (work_x + (e0.w - cur_x_pos))
            (if 0 + 1 ≥ buffer.length then 0 else 0 + 1) false out1 with
        | error err =>
          rw [hl] at hrec
          simp only [hl]
          exact hrec
        | ok res =>
          simp only [hl]
          intro hh
          cases hh
    · simp only [layout, if_neg hc]
      intro hh
      cases hh
  · intro hok hframe
    obtain ⟨fuel1, rfl⟩ : ∃ k, fuel = k + 1 := ⟨fuel - 1, by omega⟩
    have hlen : 0 < buffer.length := by rw [hb]; simp
    have hex : ∃ out placed, layout buffer w h work_y use_w cur_x_pos (fuel1 + 1) work_x 0 true
        in_out = .ok (out, placed) := by
      by_cases hc : work_x < use_w ∧ buffer ≠ []
      · have hget : buffer[0]? = some e0 := by rw [hb]; simp
        have he : entry_ok e0 := hok e0 (by rw [hb]; exact List.mem_cons_self _ _)
        obtain ⟨out1, hb1, hl1⟩ := layout_blit_ok in_out w h (work_x - cur_x_pos) work_y e0
          cur_x_pos he hcur hframe
        have hnr1 : (if 0 + 1 ≥ buffer.length then 0 else 0 + 1) < buffer.length := by
          split_ifs <;> omega
        have hm : (use_w - (work_x + (e0.w - cur_x_pos))).toNat * buffer.length +
            (if (if 0 + 1 ≥ buffer.length then 0 else 0 + 1) = 0 then 0
              else buffer.length - (if 0 + 1 ≥ buffer.length then 0 else 0 + 1)) < fuel1 := by
          split_ifs <;> omega
        obtain ⟨out, placed, h2, _⟩ := layout_rest buffer w h work_y use_w cur_x_pos e0 rest hb
          hW hok fuel1 (work_x + (e0.w - cur_x_pos))
          (if 0 + 1 ≥ buffer.length then 0 else 0 + 1) out1 hnr1 hm hl1
        refine ⟨out, { x := work_x - cur_x_pos, bitmap_nr := 0, offset_x := cur_x_pos } :: placed,
          ?_⟩
        simp only [layout, if_pos hc, hget, if_true, hb1, h2]
      · refine ⟨in_out, [], ?_⟩
        simp only [layout, if_neg hc]
    obtain ⟨out, placed, hl⟩ := hex
    exact ⟨out, placed, hl, layout_placed_le _ _ _ _ _ _ _ _ _ _ _ _ _ hl⟩

/-- C18 at a buffer of the two rasterized lines "AB" and "C", a ticker of 8
columns from column 0, and an old offset 9 beyond the head width 2. -/
theorem layout_loop_ends_witness :
    ∃ N : Nat, ∀ fuel : Nat, N ≤ fuel →
      layout demo_state_after.buffer 8 1 0 8 9 fuel 0 0 true (List.replicate 24 0) ≠
        .error .out_of_fuel ∧
      ((∀ e ∈ demo_state_after.buffer, entry_ok e) →
        ((List.replicate 24 (0 : Byte)).length : Int) = 8 * 1 * 3 →
        ∃ out placed, layout demo_state_after.buffer 8 1 0 8 9 fuel 0 0 true
          (List.replicate 24 0) = .ok (out, placed) ∧ placed.length ≤ fuel) :=
  layout_loop_ends demo_state_after.buffer 8 1 0 8 9 0 (List.replicate 24 0) (by decide)
    (by decide) (by decide)

/-! ## Claim C14: where the layout loop places the entries -/

theorem c_str_no_nul (t : List Byte) (h : NUL ∉ t) : c_str t = t := by
  induction t with
  | nil => rfl
  | cons b rest ih =>
    have hb : b ≠ NUL := fun e => h (by simp [e])
    have hr : NUL ∉ rest := fun e => h (List.mem_cons_of_mem _ e)
    simp [c_str, hb, ih hr]

/-- On a text without NUL the choice of lines 192-195 is the one the
specification words: real newlines if there is one, else backslash-n. -/
theorem static_parts_eq (split : Splitter) (t : List Byte) (h : NUL ∉ t) :
    static_parts split t = if LF ∈ t then split t [LF] else split t ESC_N := by
  unfold static_parts
  rw [c_str_no_nul t h]
  cases hf : find LF t with
  | none =>
    have := (find_none LF t).mp hf
    rw [if_neg this]
  | some i =>
    have : LF ∈ t := by
      by_contra hc
      rw [(find_none LF t).mpr hc] at hf
      cases hf
    rw [if_pos this]

/-- The draw loop of one entry: one call per part, in order, at `work_x`,
each `font_size + 1` below the one before. -/
theorem draw_parts_spec (paint : Painter) (work_x max_w font_size : Int)
    (parts : List (List Byte)) :
    ∀ (work_y : Int) (in_out : List Byte),
      (draw_parts paint work_x max_w font_size parts work_y in_out).2.2.map DrawCall.text =
        parts ∧
      (draw_parts paint work_x max_w font_size parts work_y in_out).2.1 =
        work_y + (parts.length : Int) * (font_size + 1) ∧
      ∀ (k : Nat)
        (hk : k < (draw_parts paint work_x max_w font_size parts work_y in_out).2.2.length),
        ((draw_parts paint work_x max_w font_size parts work_y in_out).2.2.get ⟨k, hk⟩).x =
          work_x ∧
        ((draw_parts paint work_x max_w font_size parts work_y in_out).2.2.get ⟨k, hk⟩).y =
          work_y + (k : Int) * (font_size + 1) := by
  induction parts with
  | nil =>
    intro work_y in_out
    refine ⟨rfl, by simp [draw_parts], ?_⟩
    intro k hk
    simp [draw_parts] at hk
  | cons cl rest ih =>
    intro work_y in_out
    obtain ⟨h1, h2, h3⟩ := ih (work_y + (font_size + 1))
      (paint in_out { text := cl, x := work_x, y := work_y, max_w := max_w })
    refine ⟨?_, ?_, ?_⟩
    · simp only [draw_parts, List.map_cons, h1]
    · simp only [draw_parts, h2, List.length_cons]
      push_cast
      ring
    · intro k hk
      cases k with
      | zero => simp [draw_parts]
      | succ k =>
        have := h3 k (Nat.lt_of_succ_lt_succ hk)
        simp only [draw_parts, List.get_eq_getElem, List.getElem_cons_succ] at this ⊢
        refine ⟨this.1, ?_⟩
        rw [this.2]
        push_cast
        ring

/-- The loop over the buffer: the texts drawn are the lines of all entries
in buffer order, and draw call number `k` is at `work_x` and
`k * (font_size + 1)` below the start. -/
theorem static_entries_spec (split : Splitter) (expand : Expander) (paint : Painter) (ts : Nat)
    (work_x max_w font_size : Int) (buffer : List scroll_entry_t)
    (hnul : ∀ e ∈ buffer, NUL ∉ expand e.text ts) :
    ∀ (work_y : Int) (in_out : List Byte),
      (static_entries split expand paint ts work_x max_w font_size buffer work_y
        in_out).2.2.map DrawCall.text = spec_lines split expand ts buffer ∧
      (static_entries split expand paint ts work_x max_w font_size buffer work_y in_out).2.1 =
        work_y + ((spec_lines split expand ts buffer).length : Int) * (font_size + 1) ∧
      ∀ (k : Nat)
        (hk : k < (static_entries split expand paint ts work_x max_w font_size buffer work_y
          in_out).2.2.length),
        ((static_entries split expand paint ts work_x max_w font_size buffer work_y
          in_out).2.2.get ⟨k, hk⟩).x = work_x ∧
        ((static_entries split expand paint ts work_x max_w font_size buffer work_y
          in_out).2.2.get ⟨k, hk⟩).y = work_y + (k : Int) * (font_size + 1) := by
  induction buffer with
  | nil =>
    intro work_y in_out
    refine ⟨rfl, by simp [static_entries, spec_lines], ?_⟩
    intro k hk
    simp [static_entries] at hk
  | cons what rest ih =>
    intro work_y in_out
    have hw : NUL ∉ expand what.text ts := hnul what (List.mem_cons_self _ _)
    have hrest : ∀ e ∈ rest, NUL ∉ expand e.text ts :=
      fun e he => hnul e (List.mem_cons_of_mem _ he)
    obtain ⟨d1, d2, d3⟩ := draw_parts_spec paint work_x max_w font_size
      (static_parts split (expand what.text ts)) work_y in_out
    obtain ⟨s1, s2, s3⟩ := ih hrest
      (work_y + ((static_parts split (expand what.text ts)).length : Int) * (font_size + 1))
      (draw_parts paint work_x max_w font_size (static_parts split (expand what.text ts))
        work_y in_out).1
    have hsl : spec_lines split expand ts (what :: rest) =
        static_parts split (expand what.text ts) ++ spec_lines split expand ts rest := by
      simp only [spec_lines, List.map_cons, List.flatten_cons, static_parts_eq split _ hw]
    have hlen1 : (draw_parts paint work_x max_w font_size
        (static_parts split (expand what.text ts)) work_y in_out).2.2.length =
        (static_parts split (expand what.text ts)).length := by
      have := congrArg List.length d1
      simpa using this
    have hunf : static_entries split expand paint ts work_x max_w font_size (what :: rest) work_y
        in_out =
        ((static_entries split expand paint ts work_x max_w font_size rest
            (work_y + ((static_parts split (expand what.text ts)).length : Int) * (font_size + 1))
            (draw_parts paint work_x max_w font_size (static_parts split (expand what.text ts))
              work_y in_out).1).1,
          (static_entries split expand paint ts work_x max_w font_size rest
            (work_y + ((static_parts split (expand what.text ts)).length : Int) * (font_size + 1))
            (draw_parts paint work_x max_w font_size (static_parts split (expand what.text ts))
              work_y in_out).1).2.1,
          (draw_parts paint work_x max_w font_size (static_parts split (expand what.text ts))
              work_y in_out).2.2 ++
            (static_entries split expand paint ts work_x max_w font_size rest
              (work_y +
                ((static_parts split (expand what.text ts)).length : Int) * (font_size + 1))
              (draw_parts paint work_x max_w font_size (static_parts split (expand what.text ts))
                work_y in_out).1).2.2) := by
      simp only [static_entries, d2]
    rw [hunf]
    refine ⟨?_, ?_, ?_⟩
    · simp only [List.map_append, d1, s1, hsl]
    · simp only [s2, hsl, List.length_append]
      push_cast
      ring
    · intro k hk
      simp only [List.get_eq_getElem]
      by_cases hlt : k < (draw_parts paint work_x max_w font_size
          (static_parts split (expand what.text ts)) work_y in_out).2.2.length
      · rw [List.getElem_append_left hlt]
        have := d3 k hlt
        simp only [List.get_eq_getElem] at this
        exact this
      · have hge : (draw_parts paint work_x max_w font_size
            (static_parts split (expand what.text ts)) work_y in_out).2.2.length ≤ k := by omega
        rw [List.getElem_append_right hge]
        have hk2 := hk
        simp only [List.length_append] at hk2
        have := s3 (k - (draw_parts paint work_x max_w font_size
            (static_parts split (expand what.text ts)) work_y in_out).2.2.length) (by omega)
        simp only [List.get_eq_getElem] at this
        refine ⟨this.1, ?_⟩
        rw [this.2, hlen1]
        rw [hlen1] at hge
        have e : ((k - (static_parts split (expand what.text ts)).length : Nat) : Int) =
            (k : Int) - ((static_parts split (expand what.text ts)).length : Int) := by
          omega
        rw [e]
        ring

/-- The frame after the draw loop of one entry is the old frame painted by
the draw calls in order; every call carries the width passed. -/
theorem draw_parts_frame (paint : Painter) (work_x max_w font_size : Int)
    (parts : List (List Byte)) :
    ∀ (work_y : Int) (in_out : List Byte),
      (draw_parts paint work_x max_w font_size parts work_y in_out).1 =
        (draw_parts paint work_x max_w font_size parts work_y in_out).2.2.foldl paint in_out ∧
      ∀ c ∈ (draw_parts paint work_x max_w font_size parts work_y in_out).2.2,
        c.max_w = max_w := by
  induction parts with
  | nil =>
    intro work_y in_out
    refine ⟨rfl, ?_⟩
    intro c hc
    simp [draw_parts] at hc
  | cons cl rest ih =>
    intro work_y in_out
    obtain ⟨h1, h2⟩ := ih (work_y + (font_size + 1))
      (paint in_out { text := cl, x := work_x, y := work_y, max_w := max_w })
    refine ⟨?_, ?_⟩
    · simp only [draw_parts, List.foldl_cons]
      exact h1
    · intro c hc
      simp only [draw_parts, List.mem_cons] at hc
      rcases hc with hc | hc
      · rw [hc]
      · exact h2 c hc

/-- The frame after the loop over the buffer is the old frame painted by all
draw calls in order; every call carries the width passed. -/
theorem static_entries_frame (split : Splitter) (expand : Expander) (paint : Painter) (ts : Nat)
    (work_x max_w font_size : Int) (buffer : List scroll_entry_t) :
    ∀ (work_y : Int) (in_out : List Byte),
      (static_entries split expand paint ts work_x max_w font_size buffer work_y in_out).1 =
        (static_entries split expand paint ts work_x max_w font_size buffer work_y
          in_out).2.2.foldl paint in_out ∧
      ∀ c ∈ (static_entries split expand paint ts work_x max_w font_size buffer work_y
          in_out).2.2, c.max_w = max_w := by
  induction buffer with
  | nil =>
    intro work_y in_out
    refine ⟨rfl, ?_⟩
    intro c hc
    simp [static_entries] at hc
  | cons what rest ih =>
    intro work_y in_out
    obtain ⟨d1, d2⟩ := draw_parts_frame paint work_x max_w font_size
      (static_parts split (expand what.text ts)) work_y in_out
    obtain ⟨s1, s2⟩ := ih
      (draw_parts paint work_x max_w font_size (static_parts split (expand what.text ts))
        work_y in_out).2.1
      (draw_parts paint work_x max_w font_size (static_parts split (expand what.text ts))
        work_y in_out).1
    refine ⟨?_, ?_⟩
    · simp only [static_entries, List.foldl_append]
      rw [← d1]
      exact s1
    · intro c hc
      simp only [static_entries, List.mem_append] at hc
      rcases hc with hc | hc
      · exact d2 c hc
      · exact s2 c hc

/-- C12 as stated fails for an expanded text that holds a NUL: line 192
looks for a newline in the whole string, while `split` receives
`text_out.c_str()`, the text before the first NUL. The text "a", NUL,
newline, "b" (no placeholder) contains a real newline, and the one line "a"
is drawn, not the two pieces "a", NUL and "b" of the text. -/
theorem static_text_cut_at_nul :
    apply_static split_on (fun t _ => t) (fun fr c => fr ++ c.text) demo_static_nul 10 0 8 1 [] =
      ([97], [{ text := [97], x := 3, y := 5, max_w := 8 }]) ∧
    spec_lines split_on (fun t _ => t) 0 demo_static_nul.buffer = [[97, NUL], [98]] ∧
    (apply_static split_on (fun t _ => t) (fun fr c => fr ++ c.text) demo_static_nul 10 0 8 1
        []).2.map DrawCall.text ≠
      spec_lines split_on (fun t _ => t) 0 demo_static_nul.buffer := by
  decide

/-- C12, amended: in static mode, when no expanded text holds a NUL, the
texts drawn are, in buffer order, the pieces of each entry's expanded text,
split on real newlines if the text contains one and on the two characters
backslash-n otherwise; draw call number `k` (from 0) is made at `x = work_x`
and `y = work_y + k * (font_size + 1)` with the ticker width, and the frame
returned is the old frame painted by these calls in this order. With the
splitter of the specification the text L1\nL2 (backslash-n, no real newline)
at font size 10 is drawn as "L1" and, 11 pixels below, "L2". -/
theorem apply_static_lines (split : Splitter) (expand : Expander) (paint : Painter)
    (f : filter_scroll) (font_size : Int) (ts : Nat) (w h : Int) (in_out : List Byte)
    (hnul : ∀ e ∈ f.buffer, NUL ∉ expand e.text ts) :
    (apply_static split expand paint f font_size ts w h in_out).2.map DrawCall.text =
      spec_lines split expand ts f.buffer ∧
    (∀ (k : Nat) (hk : k < (apply_static split expand paint f font_size ts w h in_out).2.length),
      ((apply_static split expand paint f font_size ts w h in_out).2.get ⟨k, hk⟩).x =
        (if f.x < 0 then f.x + w else f.x) ∧
      ((apply_static split expand paint f font_size ts w h in_out).2.get ⟨k, hk⟩).y =
        (if f.y < 0 then f.y + h else f.y) + (k : Int) * (font_size + 1)) ∧
    (∀ c ∈ (apply_static split expand paint f font_size ts w h in_out).2,
      c.max_w = (if f.text_w = -1 then w else f.text_w)) ∧
    (apply_static split expand paint f font_size ts w h in_out).1 =
      (apply_static split expand paint f font_size ts w h in_out).2.foldl paint in_out ∧
    apply_static split_on (fun t _ => t) (fun fr c => fr ++ c.text) demo_static 10 0 8 1 [] =
      (str "L1L2",
        [{ text := str "L1", x := 3, y := 5, max_w := 8 },
         { text := str "L2", x := 3, y := 16, max_w := 8 }]) := by
  obtain ⟨s1, _, s3⟩ := static_entries_spec split expand paint ts
    (if f.x < 0 then f.x + w else f.x) (if f.text_w = -1 then w else f.text_w) font_size
    f.buffer hnul (if f.y < 0 then f.y + h else f.y) in_out
  obtain ⟨g1, g2⟩ := static_entries_frame split expand paint ts
    (if f.x < 0 then f.x + w else f.x) (if f.text_w = -1 then w else f.text_w) font_size
    f.buffer (if f.y < 0 then f.y + h else f.y) in_out
  refine ⟨?_, ?_, ?_, ?_, by rfl⟩
  · simp only [apply_static]
    exact s1
  · intro k hk
    simp only [apply_static] at hk ⊢
    exact s3 k hk
  · intro c hc
    simp only [apply_static] at hc
    exact g2 c hc
  · simp only [apply_static]
    exact g1

/-- C12, amended, at the example: the line L1\nL2 (backslash-n), font size
10, the splitter of the specification, no placeholder, and a painter that
appends the text drawn to the frame. -/
theorem apply_static_lines_witness :
    (apply_static split_on (fun t _ => t) (fun fr c => fr ++ c.text) demo_static 10 0 8 1
        []).2.map DrawCall.text = spec_lines split_on (fun t _ => t) 0 demo_static.buffer ∧
    (∀ (k : Nat)
      (hk : k < (apply_static split_on (fun t _ => t) (fun fr c => fr ++ c.text) demo_static
        10 0 8 1 []).2.length),
      ((apply_static split_on (fun t _ => t) (fun fr c => fr ++ c.text) demo_static 10 0 8 1
          []).2.get ⟨k, hk⟩).x =
        (if demo_static.x < 0 then demo_static.x + 8 else demo_static.x) ∧
      ((apply_static split_on (fun t _ => t) (fun fr c => fr ++ c.text) demo_static 10 0 8 1
          []).2.get ⟨k, hk⟩).y =
        (if demo_static.y < 0 then demo_static.y + 1 else demo_static.y) +
          (k : Int) * (10 + 1)) ∧
    (∀ c ∈ (apply_static split_on (fun t _ => t) (fun fr c => fr ++ c.text) demo_static 10 0 8 1
        []).2, c.max_w = (if demo_static.text_w = -1 then 8 else demo_static.text_w)) ∧
    (apply_static split_on (fun t _ => t) (fun fr c => fr ++ c.text) demo_static 10 0 8 1
        []).1 =
      (apply_static split_on (fun t _ => t) (fun fr c => fr ++ c.text) demo_static 10 0 8 1
        []).2.foldl (fun fr c => fr ++ c.text) [] ∧
    apply_static split_on (fun t _ => t) (fun fr c => fr ++ c.text) demo_static 10 0 8 1 [] =
      (str "L1L2",
        [{ text := str "L1", x := 3, y := 5, max_w := 8 },
         { text := str "L2", x := 3, y := 16, max_w := 8 }]) :=
  apply_static_lines split_on (fun t _ => t) (fun fr c => fr ++ c.text) demo_static 10 0 8 1 []
    (by decide)

/-! ## Claims C19 and C20: rgb_to_yuy2 -/

/-- C20: for `r, g, b` from 0 to 255 the value that `RGB2Y` clamps lies in
`[16, 235]` and those that `RGB2U` and `RGB2V` clamp lie in `[16, 240]`
(`>> 8` as floor division by 256), so the clamp to `[0, 255]` changes nothing;
and for a pair of such pixels the averaged chroma bytes `u12` and `v12`
written by `rgb_to_yuy2` are `(U1 + U2 + 1) / 2` and `(V1 + V2 + 1) / 2`
without truncation and lie in `[16, 240]`. -/
theorem rgb2yuv_ranges (r1 g1 b1 r2 g2 b2 : Int)
    (hr1 : 0 ≤ r1 ∧ r1 ≤ 255) (hg1 : 0 ≤ g1 ∧ g1 ≤ 255) (hb1 : 0 ≤ b1 ∧ b1 ≤ 255)
    (hr2 : 0 ≤ r2 ∧ r2 ≤ 255) (hg2 : 0 ≤ g2 ∧ g2 ≤ 255) (hb2 : 0 ≤ b2 ∧ b2 ≤ 255) :
    (16 ≤ RGB2Y_raw r1 g1 b1 ∧ RGB2Y_raw r1 g1 b1 ≤ 235) ∧
    (16 ≤ RGB2U_raw r1 g1 b1 ∧ RGB2U_raw r1 g1 b1 ≤ 240) ∧
    (16 ≤ RGB2V_raw r1 g1 b1 ∧ RGB2V_raw r1 g1 b1 ≤ 240) ∧
    RGB2Y r1 g1 b1 = RGB2Y_raw r1 g1 b1 ∧
    RGB2U r1 g1 b1 = RGB2U_raw r1 g1 b1 ∧
    RGB2V r1 g1 b1 = RGB2V_raw r1 g1 b1 ∧
    ((yuy2_pair r1 g1 b1 r2 g2 b2).2.1 : Int) =
      (RGB2U_raw r1 g1 b1 + RGB2U_raw r2 g2 b2 + 1) / 2 ∧
    ((yuy2_pair r1 g1 b1 r2 g2 b2).2.2.2 : Int) =
      (RGB2V_raw r1 g1 b1 + RGB2V_raw r2 g2 b2 + 1) / 2 ∧
    (16 ≤ ((yuy2_pair r1 g1 b1 r2 g2 b2).2.1 : Int) ∧
      ((yuy2_pair r1 g1 b1 r2 g2 b2).2.1 : Int) ≤ 240) ∧
    (16 ≤ ((yuy2_pair r1 g1 b1 r2 g2 b2).2.2.2 : Int) ∧
      ((yuy2_pair r1 g1 b1 r2 g2 b2).2.2.2 : Int) ≤ 240) := by
  have hy1 : 16 ≤ RGB2Y_raw r1 g1 b1 ∧ RGB2Y_raw r1 g1 b1 ≤ 235 := by
    unfold RGB2Y_raw; omega
  have hu1 : 16 ≤ RGB2U_raw r1 g1 b1 ∧ RGB2U_raw r1 g1 b1 ≤ 240 := by
    unfold RGB2U_raw; omega
  have hv1 : 16 ≤ RGB2V_raw r1 g1 b1 ∧ RGB2V_raw r1 g1 b1 ≤ 240 := by
    unfold RGB2V_raw; omega
  have hu2 : 16 ≤ RGB2U_raw r2 g2 b2 ∧ RGB2U_raw r2 g2 b2 ≤ 240 := by
    unfold RGB2U_raw; omega
  have hv2 : 16 ≤ RGB2V_raw r2 g2 b2 ∧ RGB2V_raw r2 g2 b2 ≤ 240 := by
    unfold RGB2V_raw; omega
  have hcl : ∀ v : Int, 0 ≤ v → v ≤ 255 → clamp v 0 255 = v := by
    intro v h0 h1
    unfold clamp
    rw [if_neg (by omega), if_neg (by omega)]
  have h8 : ∀ v : Int, 0 ≤ v → v ≤ 255 → ((to_u8 v : Nat) : Int) = v := by
    intro v h0 h1
    unfold to_u8
    omega
  have eu1 : ((to_u8 (RGB2U r1 g1 b1) : Nat) : Int) = RGB2U_raw r1 g1 b1 := by
    unfold RGB2U
    rw [hcl _ (by omega) (by omega), h8 _ (by omega) (by omega)]
  have eu2 : ((to_u8 (RGB2U r2 g2 b2) : Nat) : Int) = RGB2U_raw r2 g2 b2 := by
    unfold RGB2U
    rw [hcl _ (by omega) (by omega), h8 _ (by omega) (by omega)]
  have ev1 : ((to_u8 (RGB2V r1 g1 b1) : Nat) : Int) = RGB2V_raw r1 g1 b1 := by
    unfold RGB2V
    rw [hcl _ (by omega) (by omega), h8 _ (by omega) (by omega)]
  have ev2 : ((to_u8 (RGB2V r2 g2 b2) : Nat) : Int) = RGB2V_raw r2 g2 b2 := by
    unfold RGB2V
    rw [hcl _ (by omega) (by omega), h8 _ (by omega) (by omega)]
  have hu12 : ((yuy2_pair r1 g1 b1 r2 g2 b2).2.1 : Int) =
      (RGB2U_raw r1 g1 b1 + RGB2U_raw r2 g2 b2 + 1) / 2 := by
    simp only [yuy2_pair]
    rw [eu1, eu2, h8 _ (by omega) (by omega)]
  have hv12 : ((yuy2_pair r1 g1 b1 r2 g2 b2).2.2.2 : Int) =
      (RGB2V_raw r1 g1 b1 + RGB2V_raw r2 g2 b2 + 1) / 2 := by
    simp only [yuy2_pair]
    rw [ev1, ev2, h8 _ (by omega) (by omega)]
  refine ⟨hy1, hu1, hv1, ?_, ?_, ?_, hu12, hv12, ?_, ?_⟩
  · unfold RGB2Y; exact hcl _ (by omega) (by omega)
  · unfold RGB2U; exact hcl _ (by omega) (by omega)
  · unfold RGB2V; exact hcl _ (by omega) (by omega)
  · rw [hu12]; omega
  · rw [hv12]; omega

/-- C20 at a pure blue and a pure red pixel, the extremes of the chroma. -/
theorem rgb2yuv_ranges_witness :
    (16 ≤ RGB2Y_raw 0 0 255 ∧ RGB2Y_raw 0 0 255 ≤ 235) ∧
    (16 ≤ RGB2U_raw 0 0 255 ∧ RGB2U_raw 0 0 255 ≤ 240) ∧
    (16 ≤ RGB2V_raw 0 0 255 ∧ RGB2V_raw 0 0 255 ≤ 240) ∧
    RGB2Y 0 0 255 = RGB2Y_raw 0 0 255 ∧
    RGB2U 0 0 255 = RGB2U_raw 0 0 255 ∧
    RGB2V 0 0 255 = RGB2V_raw 0 0 255 ∧
    ((yuy2_pair 0 0 255 255 0 0).2.1 : Int) =
      (RGB2U_raw 0 0 255 + RGB2U_raw 255 0 0 + 1) / 2 ∧
    ((yuy2_pair 0 0 255 255 0 0).2.2.2 : Int) =
      (RGB2V_raw 0 0 255 + RGB2V_raw 255 0 0 + 1) / 2 ∧
    (16 ≤ ((yuy2_pair 0 0 255 255 0 0).2.1 : Int) ∧
      ((yuy2_pair 0 0 255 255 0 0).2.1 : Int) ≤ 240) ∧
    (16 ≤ ((yuy2_pair 0 0 255 255 0 0).2.2.2 : Int) ∧
      ((yuy2_pair 0 0 255 255 0 0).2.2.2 : Int) ≤ 240) :=
  rgb2yuv_ranges 0 0 255 255 0 0 (by decide) (by decide) (by decide) (by decide) (by decide)
    (by decide)

/-- C19 (the code faults): for an odd width the inner loop runs once more
than there are whole pixel pairs. With a picture of 1 by 1 pixels (3 bytes)
the reads `in[3]` to `in[5]` are out of range; with 1 by 3 pixels (9 bytes)
the first row is converted and the second row writes `out[6]`, beyond the 6
bytes allocated. -/
theorem rgb_to_yuy2_odd_width :
    rgb_to_yuy2 [10, 20, 30] 1 1 = .error .out_of_range ∧
    rgb_to_yuy2 [10, 20, 30, 40, 50, 60, 70, 80, 90] 1 3 = .error .out_of_range ∧
    (∃ p, load3 [10, 20, 30, 40, 50, 60, 70, 80, 90] (1 * 1 * 3 + 0 * 3 + 3) = .ok p) ∧
    store (List.replicate ((1 : Int) * 2 * 3).toNat 0) (4 + 2) 0 = .error .out_of_range := by
  refine ⟨by rfl, by rfl, ⟨_, by rfl⟩, by rfl⟩

theorem load3_ok (inp : List Byte) (o : Int) (h0 : 0 ≤ o) (h1 : o + 2 < inp.length) :
    ∃ p, load3 inp o = .ok p := by
  have l0 := load_ok inp (o + 0) (by omega) (by omega)
  have l1 := load_ok inp (o + 1) (by omega) (by omega)
  have l2 := load_ok inp (o + 2) (by omega) (by omega)
  have key : load3 inp o = .ok (((inp.getD (o + 0).toNat 0 : Nat) : Int),
      ((inp.getD (o + 1).toNat 0 : Nat) : Int), ((inp.getD (o + 2).toNat 0 : Nat) : Int)) := by
    simp only [load3, l0, l1, l2]
  exact ⟨_, key⟩

theorem store4_ok (out : List Byte) (outo : Int) (p : Byte × Byte × Byte × Byte)
    (h0 : 0 ≤ outo) (h1 : outo + 3 < out.length) :
    ∃ out1, store4 out outo p = .ok out1 ∧ out1.length = out.length := by
  have s0 := store_ok out (outo + 0) p.1 (by omega) (by omega)
  have s1 := store_ok (out.set (outo + 0).toNat p.1) (outo + 1) p.2.1 (by omega)
    (by simp only [List.length_set]; omega)
  have s2 := store_ok ((out.set (outo + 0).toNat p.1).set (outo + 1).toNat p.2.1) (outo + 2)
    p.2.2.1 (by omega) (by simp only [List.length_set]; omega)
  have s3 := store_ok (((out.set (outo + 0).toNat p.1).set (outo + 1).toNat p.2.1).set
    (outo + 2).toNat p.2.2.1) (outo + 3) p.2.2.2 (by omega)
    (by simp only [List.length_set]; omega)
  have key : store4 out outo p = .ok ((((out.set (outo + 0).toNat p.1).set (outo + 1).toNat
      p.2.1).set (outo + 2).toNat p.2.2.1).set (outo + 3).toNat p.2.2.2) := by
    simp only [store4, s0, s1, s2]
    exact s3
  refine ⟨_, key, ?_⟩
  simp only [List.length_set]

/-- The inner loop of `rgb_to_yuy2` over `n` whole pixel pairs of a row
inside the picture: no access is out of range and `4 * n` bytes are
written. -/
theorem yuy2_cols_ok (inp : List Byte) (width height y : Int)
    (hin : (inp.length : Int) = width * height * 3) (hy : 0 ≤ y) (hyh : y < height) (n : Nat) :
    ∀ (x : Int) (out : List Byte) (outo : Int), 0 ≤ x → x + 2 * (n : Int) ≤ width →
      0 ≤ outo → outo + 4 * (n : Int) ≤ out.length →
      ∃ out1, yuy2_cols inp width y n x out outo = .ok (out1, outo + 4 * (n : Int)) ∧
        out1.length = out.length := by
  induction n with
  | zero =>
    intro x out outo _ _ _ _
    exact ⟨out, by simp [yuy2_cols], rfl⟩
  | succ n ih =>
    intro x out outo hx hxw ho hol
    push_cast at hxw hol
    have hb0 := pix_bound width height x y 0 hx (by omega) hy hyh (by omega) (by omega)
    have hb1 := pix_bound width height (x + 1) y 2 (by omega) (by omega) hy hyh (by omega)
      (by omega)
    have e0 : y * width * 3 + x * 3 = pix width x y 0 := by unfold pix; ring
    have e1 : pix width (x + 1) y 2 = pix width x y 0 + 5 := by unfold pix; ring
    obtain ⟨p1, hp1⟩ := load3_ok inp (pix width x y 0) hb0.1 (by omega)
    obtain ⟨p2, hp2⟩ := load3_ok inp (pix width x y 0 + 3) (by omega) (by omega)
    obtain ⟨out1, hs, hl⟩ := store4_ok out outo
      (yuy2_pair p1.1 p1.2.1 p1.2.2 p2.1 p2.2.1 p2.2.2) ho (by omega)
    obtain ⟨out2, h2, hl2⟩ := ih (x + 2) out1 (outo + 4) (by omega) (by omega) (by omega)
      (by rw [hl]; omega)
    refine ⟨out2, ?_, by rw [hl2, hl]⟩
    simp only [yuy2_cols, e0, hp1, hp2, hs, h2]
    congr 2
    push_cast
    ring

/-- The outer loop of `rgb_to_yuy2` for an even width: every row writes
`2 * width` bytes and no access is out of range. -/
theorem yuy2_rows_ok (inp : List Byte) (width height : Int)
    (hin : (inp.length : Int) = width * height * 3) (hw : 0 ≤ width) (heven : width % 2 = 0)
    (n : Nat) :
    ∀ (y : Int) (out : List Byte) (outo : Int), 0 ≤ y → y + (n : Int) ≤ height →
      0 ≤ outo → outo + (n : Int) * (2 * width) ≤ out.length →
      ∃ out1, yuy2_rows inp width n y out outo = .ok (out1, outo + (n : Int) * (2 * width)) ∧
        out1.length = out.length := by
  induction n with
  | zero =>
    intro y out outo _ _ _ _
    exact ⟨out, by simp [yuy2_rows], rfl⟩
  | succ n ih =>
    intro y out outo hy hyh ho hol
    have e : ((n + 1 : Nat) : Int) * (2 * width) = (n : Int) * (2 * width) + 2 * width := by
      push_cast; ring
    have hnn : 0 ≤ (n : Int) * (2 * width) := Int.mul_nonneg (Int.natCast_nonneg n) (by omega)
    rw [e] at hol
    push_cast at hyh
    have hcnt : 2 * (((width + 1) / 2).toNat : Int) = width := by omega
    obtain ⟨out1, h1, hl1⟩ := yuy2_cols_ok inp width height y hin hy (by omega)
      ((width + 1) / 2).toNat 0 out outo (le_refl 0) (by omega) ho (by omega)
    have e4 : outo + 4 * (((width + 1) / 2).toNat : Int) = outo + 2 * width := by omega
    rw [e4] at h1
    obtain ⟨out2, h2, hl2⟩ := ih (y + 1) out1 (outo + 2 * width) (by omega) (by omega)
      (by omega) (by rw [hl1]; omega)
    refine ⟨out2, ?_, by rw [hl2, hl1]⟩
    simp only [yuy2_rows, h1, h2, e]
    congr 2
    ring

/-- For an even width `rgb_to_yuy2` is safe: on an input of
`width * height * 3` bytes it reads and writes inside the two buffers and
fills the output indices `0` to `width * 2 * height - 1` in order. -/
theorem rgb_to_yuy2_even (inp : List Byte) (width height : Int) (hw : 0 ≤ width)
    (hh : 0 ≤ height) (heven : width % 2 = 0)
    (hin : (inp.length : Int) = width * height * 3) :
    ∃ out, rgb_to_yuy2 inp width height = .ok (out, width * 2 * height) ∧
      (out.length : Int) = width * 2 * height := by
  have hnn : 0 ≤ width * 2 * height := Int.mul_nonneg (by omega) hh
  have hlen : ((List.replicate (width * 2 * height).toNat (0 : Byte)).length : Int) =
      width * 2 * height := by
    simp only [List.length_replicate]
    omega
  have hn : ((height.toNat : Nat) : Int) = height := by omega
  have e : ((height.toNat : Nat) : Int) * (2 * width) = width * 2 * height := by
    rw [hn]; ring
  obtain ⟨out1, h1, hl1⟩ := yuy2_rows_ok inp width height hin hw heven height.toNat 0
    (List.replicate (width * 2 * height).toNat 0) 0 (le_refl 0) (by omega) (le_refl 0)
    (by rw [hlen, e]; omega)
  refine ⟨out1, ?_, by rw [hl1]; exact hlen⟩
  unfold rgb_to_yuy2
  rw [h1, e]
  simp

end Constatus
